import Mathlib

/-!
Verification of borgmatic's subcommand-argument resolution core
(`borgmatic.commands.arguments`) and of the repository-listing helpers
(`borgmatic/borg/rlist.py`).

The dispatcher (`parse_subparser_arguments`, `get_unparsable_arguments`) is
modelled from the specification, since only its unit tests ship in this
source tree; the rlist helpers are translated from `borgmatic/borg/rlist.py`.
-/

set_option maxHeartbeats 1000000

abbrev Token := String

/-- Keep the first occurrence of every element of the list, dropping any
element already listed in `seen` (the Python `dict.fromkeys` ordering). -/
def dedupFirstAux [DecidableEq α] (seen : List α) : List α → List α
  | [] => []
  | x :: xs => if x ∈ seen then dedupFirstAux seen xs else x :: dedupFirstAux (x :: seen) xs

/-- Order-preserving deduplication: keep the first occurrence of each element. -/
def dedupFirst [DecidableEq α] (l : List α) : List α := dedupFirstAux [] l

/-- Modelled from the spec: `get_unparsable_arguments` (the unparsable-argument
verifier of §4.2, absent from this source tree).  Given the per-alternative
leftover runs, it returns the ordered, duplicate-free sequence of tokens that
remain unconsumed across every run, and the empty sequence when given no
runs. -/
def get_unparsable_arguments (runs : List (List Token)) : List Token :=
  if runs.isEmpty then []
  else (dedupFirst runs.flatten).filter (fun t => runs.all (fun r => decide (t ∈ r)))

/-! ### The subcommand dispatcher, modelled from the spec (§3, §4.1) -/

/-- Modelled from the spec: the opaque per-action Parsed Arguments record
(§3).  The core never inspects its fields except the `options` convention
used by the pass-through action. -/
structure Namespace (α : Type) where
  data : α
  options : List Token
deriving DecidableEq

/-- Modelled from the spec: an action's delegate parser (§6).
`parse_known_args` returns the Parsed Arguments together with the consumed
echo: the tokens the delegate determined belonged to it, its own name
included (§4.1 step 3); unknown flags are in the echo's complement (§6). -/
structure Subparser (α : Type) where
  parse_known_args : List Token → Namespace α × List Token

/-- Modelled from the spec: the alias table, canonical action name → its
registered aliases (§6). -/
abbrev AliasTable := List (String × List String)

/-- The inverted alias mapping, alias → canonical action name. -/
def aliasToName (aliases : AliasTable) : List (String × String) :=
  (aliases.map (fun p => p.2.map (fun a => (a, p.1)))).flatten

/-- Alias resolution (§4.1): an alias resolves to its canonical action name;
any other token resolves to itself. -/
def canonicalName (aliases : AliasTable) (t : Token) : Token :=
  ((aliasToName aliases).lookup t).getD t

/-- Modelled from the spec: the Action Registry (§3), canonical action name →
delegate parser, immutable for the duration of one parse. -/
abbrev Registry (α : Type) := List (String × Subparser α)

/-- Token classification (§4.1 step 1): a token matches an action iff its
alias-resolved canonical form is a registered action name; the registry
lookup for dispatch always uses the canonical name. -/
def isAction (reg : Registry α) (aliases : AliasTable) (t : Token) :
    Option (String × Subparser α) :=
  (reg.lookup (canonicalName aliases t)).map (fun sp => (canonicalName aliases t, sp))

/-- One recognized action occurrence: the raw token that matched, the
canonical action name, its delegate, and the raw window of tokens following
the name up to the next recognized action name. -/
structure Occ (α : Type) where
  tok : Token
  name : String
  sp : Subparser α
  window : List Token

/-- The designated pass-through action's name (§4.1 step 6). -/
def passThroughName : String := "borg"

/-- Scan the tokens following a recognized action name (§4.1 steps 1-2, 6):
tokens up to the next recognized action name join the current occurrence's
raw window; recognizing the pass-through action stops classification and
captures the rest of the sequence verbatim. -/
def classifyRuns (isAct : Token → Option (String × Subparser α)) :
    Token → String → Subparser α → List Token → List Token →
      List (Occ α) × Option (List Token)
  | curTok, curName, curSp, curWin, [] => ([⟨curTok, curName, curSp, curWin⟩], none)
  | curTok, curName, curSp, curWin, t :: rest =>
    match isAct t with
    | some (c, sp) =>
      if c = passThroughName then
        ([⟨curTok, curName, curSp, curWin⟩, ⟨t, c, sp, []⟩], some rest)
      else
        let r := classifyRuns isAct t c sp [] rest
        (⟨curTok, curName, curSp, curWin⟩ :: r.1, r.2)
    | none => classifyRuns isAct curTok curName curSp (curWin ++ [t]) rest

/-- Classify a raw token sequence (§4.1 steps 1-2, 6): tokens preceding the
first recognized action name form the global-prefix buffer; each recognized
action name opens an occurrence window; recognizing the pass-through action
captures the remaining tokens verbatim and stops classification. -/
def classifyTop (isAct : Token → Option (String × Subparser α)) :
    List Token → List Token × List (Occ α) × Option (List Token)
  | [] => ([], [], none)
  | t :: rest =>
    match isAct t with
    | some (c, sp) =>
      if c = passThroughName then ([], [⟨t, c, sp, []⟩], some rest)
      else
        let r := classifyRuns isAct t c sp [] rest
        ([], r.1, r.2)
    | none =>
      let r := classifyTop isAct rest
      (t :: r.1, r.2)

/-- Delegate invocation for the recognized occurrences (§4.1 step 3): each
delegate receives the global-prefix tokens followed by its canonical name
and raw window, and returns its Parsed Arguments and consumed echo.  The
pass-through action's captured tokens are stored verbatim in its `options`
field (§4.1 step 6). -/
def actionResults (pre : List Token) (occs : List (Occ α))
    (captured : Option (List Token)) : List (String × Namespace α × List Token) :=
  occs.map (fun o =>
    let r := o.sp.parse_known_args (pre ++ o.name :: o.window)
    if o.name = passThroughName then (o.name, { r.1 with options := captured.getD [] }, r.2)
    else (o.name, r.1, r.2))

/-- The classified token sequence: the global prefix and every occurrence's
canonical name and raw window; the pass-through action's captured tokens are
excluded from classification (§4.1 step 6). -/
def classifiedTokens (pre : List Token) (occs : List (Occ α)) : List Token :=
  pre ++ (occs.map (fun o => o.name :: o.window)).flatten

/-- Ordered-mapping insertion with Python `OrderedDict` update semantics:
assigning to an existing key keeps the key's position; a new key is
appended. -/
def insertOrUpdate (m : List (String × β)) (k : String) (v : β) : List (String × β) :=
  if m.any (fun p => p.1 == k) then m.map (fun p => if p.1 = k then (k, v) else p)
  else m ++ [(k, v)]

/-- Build the Result Mapping from the per-occurrence results in scan order
(§3): later occurrences of a name overwrite earlier ones in place. -/
def buildMapping (rs : List (String × Namespace α × List Token)) :
    List (String × Namespace α) :=
  rs.foldl (fun acc r => insertOrUpdate acc r.1 r.2.1) []

/-- Per-delegate unconsumed leftovers (§4.1 step 4): the classified tokens
absent from one delegate's consumed echo. -/
def leftoverRuns (ctoks : List Token) (rs : List (String × Namespace α × List Token)) :
    List (List Token) :=
  rs.map (fun r => ctoks.filter (fun t => !(decide (t ∈ r.2.2))))

/-- Default-action substitution (§4.1 step 5): each default action's delegate
parses the full original token sequence. -/
def defaultResults (unparsed : List Token) (reg : Registry α) (defaults : List String) :
    List (String × Namespace α × List Token) :=
  defaults.filterMap (fun d => (reg.lookup d).map (fun sp =>
    let r := sp.parse_known_args unparsed
    (d, r.1, r.2)))

/-- Modelled from the spec: `parse_subparser_arguments` (§4.1), absent from
this source tree (only its unit tests ship here).  Scans the token sequence
for recognized action names (alias-resolved), hands each recognized action's
delegate the global prefix plus its raw window, merges the per-delegate
leftovers with the §4.2 verifier, substitutes the Default Action Set when no
action name was found, captures every token after the pass-through action
verbatim into its `options` field, and raises the unrecognized-action error
when neither a recognized action name nor the Default Action Set applies to
a non-empty input. -/
def parse_subparser_arguments (unparsed : List Token) (reg : Registry α)
    (aliases : AliasTable) (defaults : List String) :
    Except String (List (String × Namespace α) × List Token) :=
  if ((classifyTop (isAction reg aliases) unparsed).2.1).isEmpty then
    if unparsed.isEmpty then .ok ([], [])
    else if !defaults.isEmpty && defaults.all (fun d => (reg.lookup d).isSome) then
      .ok (buildMapping (defaultResults unparsed reg defaults),
        get_unparsable_arguments (leftoverRuns unparsed (defaultResults unparsed reg defaults)))
    else .error "Unrecognized action"
  else
    .ok (buildMapping (actionResults (classifyTop (isAction reg aliases) unparsed).1
          (classifyTop (isAction reg aliases) unparsed).2.1
          (classifyTop (isAction reg aliases) unparsed).2.2),
      get_unparsable_arguments (leftoverRuns
        (classifiedTokens (classifyTop (isAction reg aliases) unparsed).1
          (classifyTop (isAction reg aliases) unparsed).2.1)
        (actionResults (classifyTop (isAction reg aliases) unparsed).1
          (classifyTop (isAction reg aliases) unparsed).2.1
          (classifyTop (isAction reg aliases) unparsed).2.2)))

/-! ### `borgmatic/borg/rlist.py` embedding -/

/-- A Python value as inspected by the flag builders: `None`, a boolean, a
string, or an integer. -/
inductive Val where
  | vnone
  | vbool (b : Bool)
  | vstr (s : String)
  | vint (n : Int)
deriving DecidableEq

/-- Python truthiness for the values above. -/
def Val.truthy : Val → Bool
  | .vnone => false
  | .vbool b => b
  | .vstr s => !s.isEmpty
  | .vint n => n != 0

/-- Python `str()` rendering of the values above, as used by the flag
builders. -/
def Val.render : Val → String
  | .vnone => "None"
  | .vbool b => if b then "True" else "False"
  | .vstr s => s
  | .vint n => toString n

/-- The Borg feature checks consulted by rlist.py. -/
inductive Feature where
  | RLIST
  | MATCH_ARCHIVES
  | SEPARATE_REPOSITORY_ARCHIVE
deriving DecidableEq

/-- Python `name.replace("_", "-")` for the single-character pattern used by
the flag builders: replace each underscore character by a dash. -/
def dashify (name : String) : String :=
  String.mk (name.data.map (fun ch => if ch = '_' then '-' else ch))

/-- Modelled from the spec: `flags.make_flags`, an out-of-scope deterministic
flag-formatting collaborator (§1): a falsy value yields no flags, `True`
yields the bare flag, any other value yields the flag and its rendering;
underscores in the flag name become dashes. -/
def make_flags (name : String) (value : Val) : List String :=
  if value.truthy then
    if value = .vbool true then ["--" ++ dashify name]
    else ["--" ++ dashify name, value.render]
  else []

/-- Modelled from the spec: `flags.make_flags_from_arguments`, an out-of-scope
collaborator (§1): converts each field of a parsed-arguments record to flags
with `make_flags`, skipping the fields named by `excludes`. -/
def make_flags_from_arguments (fields : List (String × Val)) (excludes : List String) :
    List String :=
  ((fields.filter (fun p => !(excludes.contains p.1))).map
    (fun p => make_flags p.1 p.2)).flatten

/-- Modelled from the spec: `flags.make_match_archives_flags`, an out-of-scope
collaborator (§1): format the archive-match flag from the match-archives
value and the configured archive-name format.  `make_rlist_command` only
reaches it when the prefix is falsy. -/
def make_match_archives_flags (match_archives : Val) (archive_name_format : Val)
    (matchArchivesAvailable : Bool) : List String :=
  if match_archives.truthy then
    if matchArchivesAvailable then ["--match-archives", match_archives.render]
    else ["--glob-archives", match_archives.render]
  else if archive_name_format.truthy then
    if matchArchivesAvailable then ["--match-archives", "sh:" ++ archive_name_format.render]
    else ["--glob-archives", archive_name_format.render]
  else []

/-- Modelled from the spec: `flags.make_repository_flags`, an out-of-scope
collaborator (§1). -/
def make_repository_flags (repository_path : String) (repoFlagAvailable : Bool) :
    List String :=
  if repoFlagAvailable then ["--repo", repository_path] else [repository_path]

/-- Python `dict.get(key, None)`. -/
def configGet (config : List (String × Val)) (key : String) : Val :=
  (config.lookup key).getD .vnone

/-- Python `str.isspace` for one character: the whitespace characters CPython
strips — U+0009–U+000D, U+001C–U+001F, the space, U+0085 (NEL), U+00A0 and
the Unicode space/line/paragraph separators U+1680, U+2000–U+200A, U+2028,
U+2029, U+202F, U+205F, U+3000. -/
def pyIsSpace (c : Char) : Bool :=
  (0x9 ≤ c.toNat && c.toNat ≤ 0xd) || (0x1c ≤ c.toNat && c.toNat ≤ 0x1f)
    || c.toNat == 0x20 || c.toNat == 0x85 || c.toNat == 0xa0
    || c.toNat == 0x1680 || (0x2000 ≤ c.toNat && c.toNat ≤ 0x200a)
    || c.toNat == 0x2028 || c.toNat == 0x2029 || c.toNat == 0x202f
    || c.toNat == 0x205f || c.toNat == 0x3000

/-- Python `str.strip()`: drop leading and trailing whitespace. -/
def pyStrip (s : String) : String :=
  String.mk (((s.data.dropWhile pyIsSpace).reverse.dropWhile pyIsSpace).reverse)

/-- Python's line-boundary characters for `str.splitlines`: LF, VT, FF, CR,
FS, GS, RS, NEL, LINE SEPARATOR and PARAGRAPH SEPARATOR; the two-character
boundary "\r\n" is handled in `splitlinesList`. -/
def pyIsLineBreak (c : Char) : Bool :=
  (0xa ≤ c.toNat && c.toNat ≤ 0xd) || (0x1c ≤ c.toNat && c.toNat ≤ 0x1e)
    || c.toNat == 0x85 || c.toNat == 0x2028 || c.toNat == 0x2029

/-- Python `str.splitlines` on a character list: split at the line-boundary
characters, treating "\r\n" as a single boundary; a trailing boundary does
not open a final empty line, and the empty text has no lines. -/
def splitlinesList : List Char → List (List Char)
  | [] => []
  | [c] => if pyIsLineBreak c then [[]] else [[c]]
  | c :: c2 :: cs =>
    if c = '\r' && c2 = '\n' then [] :: splitlinesList cs
    else if pyIsLineBreak c then [] :: splitlinesList (c2 :: cs)
    else
      match splitlinesList (c2 :: cs) with
      | [] => [[c]]
      | l :: ls => (c :: l) :: ls

/-- Python `str.splitlines`. -/
def splitlines (s : String) : List String :=
  (splitlinesList s.data).map (fun cs => String.mk cs)

/-- The full Borg listing command that `resolve_archive_name` builds for the
"latest" case (from `borgmatic/borg/rlist.py`). -/
def resolve_archive_name_command (repository_path : String)
    (storage_config : List (String × Val)) (local_borg_version : String)
    (local_path : String) (remote_path : Val)
    (feature_available : Feature → String → Bool) : List String :=
  [local_path, if feature_available .RLIST local_borg_version then "rlist" else "list"]
    ++ make_flags "remote-path" remote_path
    ++ make_flags "lock-wait" (configGet storage_config "lock_wait")
    ++ make_flags "last" (.vint 1)
    ++ ["--short"]
    ++ make_repository_flags repository_path
        (feature_available .SEPARATE_REPOSITORY_ARCHIVE local_borg_version)

/-- From `borgmatic/borg/rlist.py`: return the archive name unchanged, except
that "latest" is resolved by listing the repository and taking the last line
of the stripped captured output; raise ValueError when that output has no
lines.  The external-command collaborator is the
`execute_command_and_capture_output` parameter; the second component of the
result records the external commands executed. -/
def resolve_archive_name (repository_path archive : String)
    (storage_config : List (String × Val)) (local_borg_version : String)
    (local_path : String) (remote_path : Val)
    (feature_available : Feature → String → Bool)
    (execute_command_and_capture_output : List String → String) :
    Except String String × List (List String) :=
  if archive ≠ "latest" then (.ok archive, [])
  else
    let full_command := resolve_archive_name_command repository_path storage_config
      local_borg_version local_path remote_path feature_available
    let output := execute_command_and_capture_output full_command
    match splitlines (pyStrip output) with
    | [] => (.error "No archives found in the repository", [full_command])
    | l :: ls => (.ok ((l :: ls).getLastD ""), [full_command])

/-- From `borgmatic/borg/rlist.py`: `MAKE_FLAGS_EXCLUDES`. -/
def MAKE_FLAGS_EXCLUDES : List String := ["repository", "prefix", "match_archives"]

/-- The rlist action's parsed arguments: the fields consulted explicitly by
`make_rlist_command` (`prefix` is `prefix_value` here) plus the remaining
fields that only the generic argument-to-flag conversion sees. -/
structure RlistArguments where
  repository : Val
  json : Bool
  prefix_value : Val
  match_archives : Val
  extra : List (String × Val)

/-- The `vars(rlist_arguments)` view consumed by the generic conversion. -/
def RlistArguments.fields (args : RlistArguments) : List (String × Val) :=
  ("repository", args.repository) :: ("json", .vbool args.json)
    :: ("prefix", args.prefix_value) :: ("match_archives", args.match_archives)
    :: args.extra

/-- From `borgmatic/borg/rlist.py`: build the command tuple to list archives
in a repository.  Logger state enters as the logger's effective level
(Python `logging`: DEBUG = 10, INFO = 20). -/
def make_rlist_command (repository_path : String) (storage_config : List (String × Val))
    (local_borg_version : String) (rlist_arguments : RlistArguments)
    (local_path : String) (remote_path : Val)
    (feature_available : Feature → String → Bool) (loggerLevel : Nat) : List String :=
  [local_path, if feature_available .RLIST local_borg_version then "rlist" else "list"]
    ++ (if loggerLevel == 20 && !rlist_arguments.json then ["--info"] else [])
    ++ (if decide (loggerLevel ≤ 10) && !rlist_arguments.json then
          ["--debug", "--show-rc"]
        else [])
    ++ make_flags "remote-path" remote_path
    ++ make_flags "lock-wait" (configGet storage_config "lock_wait")
    ++ (if rlist_arguments.prefix_value.truthy then
          (if feature_available .MATCH_ARCHIVES local_borg_version then
            make_flags "match-archives"
              (.vstr ("sh:" ++ rlist_arguments.prefix_value.render ++ "*"))
          else
            make_flags "glob-archives"
              (.vstr (rlist_arguments.prefix_value.render ++ "*")))
        else
          make_match_archives_flags
            (if rlist_arguments.match_archives.truthy then rlist_arguments.match_archives
             else configGet storage_config "match_archives")
            (configGet storage_config "archive_name_format")
            (feature_available .MATCH_ARCHIVES local_borg_version))
    ++ make_flags_from_arguments rlist_arguments.fields MAKE_FLAGS_EXCLUDES
    ++ make_repository_flags repository_path
        (feature_available .SEPARATE_REPOSITORY_ARCHIVE local_borg_version)

/-! ### Theorems -/

theorem dedupFirstAux_cons_mem [DecidableEq α] {seen : List α} {x : α} (xs : List α)
    (h : x ∈ seen) : dedupFirstAux seen (x :: xs) = dedupFirstAux seen xs := by
  simp [dedupFirstAux, h]

theorem dedupFirstAux_cons_not_mem [DecidableEq α] {seen : List α} {x : α} (xs : List α)
    (h : x ∉ seen) : dedupFirstAux seen (x :: xs) = x :: dedupFirstAux (x :: seen) xs := by
  simp [dedupFirstAux, h]

theorem mem_dedupFirstAux [DecidableEq α] (l : List α) :
    ∀ (seen : List α) (t : α), t ∈ dedupFirstAux seen l ↔ t ∈ l ∧ t ∉ seen := by
  induction l with
  | nil => intro seen t; simp [dedupFirstAux]
  | cons x xs ih =>
    intro seen t
    by_cases hx : x ∈ seen
    · rw [dedupFirstAux_cons_mem xs hx, ih seen t]
      constructor
      · rintro ⟨h1, h2⟩
        exact ⟨List.mem_cons_of_mem x h1, h2⟩
      · rintro ⟨h1, h2⟩
        rcases List.mem_cons.mp h1 with h | h
        · exact absurd (h ▸ hx) h2
        · exact ⟨h, h2⟩
    · rw [dedupFirstAux_cons_not_mem xs hx]
      rw [List.mem_cons, ih (x :: seen) t]
      constructor
      · rintro (h | ⟨h1, h2⟩)
        · exact ⟨h ▸ List.mem_cons_self _ _, h ▸ hx⟩
        · refine ⟨List.mem_cons_of_mem x h1, ?_⟩
          intro hs
          exact h2 (List.mem_cons_of_mem x hs)
      · rintro ⟨h1, h2⟩
        rcases List.mem_cons.mp h1 with h | h
        · exact Or.inl h
        · by_cases htx : t = x
          · exact Or.inl htx
          · refine Or.inr ⟨h, ?_⟩
            intro hs
            rcases List.mem_cons.mp hs with h3 | h3
            · exact htx h3
            · exact h2 h3

theorem mem_dedupFirst [DecidableEq α] (l : List α) (t : α) :
    t ∈ dedupFirst l ↔ t ∈ l := by
  simp [dedupFirst, mem_dedupFirstAux]

theorem nodup_dedupFirstAux [DecidableEq α] (l : List α) :
    ∀ seen : List α, (dedupFirstAux seen l).Nodup := by
  induction l with
  | nil => intro seen; simp [dedupFirstAux]
  | cons x xs ih =>
    intro seen
    by_cases hx : x ∈ seen
    · rw [dedupFirstAux_cons_mem xs hx]
      exact ih seen
    · rw [dedupFirstAux_cons_not_mem xs hx]
      refine List.nodup_cons.mpr ⟨?_, ih (x :: seen)⟩
      intro hmem
      exact ((mem_dedupFirstAux xs (x :: seen) x).mp hmem).2 (List.mem_cons_self x seen)

theorem dedupFirstAux_eq_self [DecidableEq α] (l : List α) :
    ∀ seen : List α, l.Nodup → (∀ t ∈ l, t ∉ seen) → dedupFirstAux seen l = l := by
  induction l with
  | nil => intro seen _ _; rfl
  | cons x xs ih =>
    intro seen hnd hdisj
    have hx : x ∉ seen := hdisj x (List.mem_cons_self x xs)
    rw [dedupFirstAux_cons_not_mem xs hx]
    have hnd' := List.nodup_cons.mp hnd
    congr 1
    refine ih (x :: seen) hnd'.2 ?_
    intro t ht hmem
    rcases List.mem_cons.mp hmem with h | h
    · exact hnd'.1 (h ▸ ht)
    · exact hdisj t (List.mem_cons_of_mem x ht) h

theorem dedupFirst_eq_self [DecidableEq α] (l : List α) (h : l.Nodup) :
    dedupFirst l = l :=
  dedupFirstAux_eq_self l [] h (by simp)

theorem dedupFirstAux_eq_nil [DecidableEq α] (l : List α) :
    ∀ seen : List α, (∀ t ∈ l, t ∈ seen) → dedupFirstAux seen l = [] := by
  induction l with
  | nil => intro seen _; rfl
  | cons x xs ih =>
    intro seen hsub
    have hx : x ∈ seen := hsub x (List.mem_cons_self x xs)
    rw [dedupFirstAux_cons_mem xs hx]
    exact ih seen (fun t ht => hsub t (List.mem_cons_of_mem x ht))

theorem dedupFirstAux_congr [DecidableEq α] (l : List α) :
    ∀ s₁ s₂ : List α, (∀ a ∈ l, (a ∈ s₁ ↔ a ∈ s₂)) → dedupFirstAux s₁ l = dedupFirstAux s₂ l := by
  induction l with
  | nil => intro s₁ s₂ _; rfl
  | cons x xs ih =>
    intro s₁ s₂ hequiv
    have hx := hequiv x (List.mem_cons_self x xs)
    by_cases h1 : x ∈ s₁
    · have h2 : x ∈ s₂ := hx.mp h1
      rw [dedupFirstAux_cons_mem xs h1, dedupFirstAux_cons_mem xs h2]
      exact ih s₁ s₂ (fun a ha => hequiv a (List.mem_cons_of_mem x ha))
    · have h2 : x ∉ s₂ := fun h => h1 (hx.mpr h)
      rw [dedupFirstAux_cons_not_mem xs h1, dedupFirstAux_cons_not_mem xs h2]
      congr 1
      refine ih (x :: s₁) (x :: s₂) ?_
      intro a ha
      rw [List.mem_cons, List.mem_cons, hequiv a (List.mem_cons_of_mem x ha)]

theorem dedupFirstAux_append [DecidableEq α] (xs : List α) :
    ∀ (ys seen : List α),
      dedupFirstAux seen (xs ++ ys) = dedupFirstAux seen xs ++ dedupFirstAux (xs ++ seen) ys := by
  induction xs with
  | nil =>
    intro ys seen
    simp [dedupFirstAux]
  | cons x xs ih =>
    intro ys seen
    by_cases hx : x ∈ seen
    · rw [List.cons_append, dedupFirstAux_cons_mem (xs ++ ys) hx, ih ys seen,
        dedupFirstAux_cons_mem xs hx]
      congr 1
      refine dedupFirstAux_congr ys _ _ ?_
      intro a _
      simp only [List.cons_append, List.mem_cons, List.mem_append]
      constructor
      · exact fun h => Or.inr h
      · rintro (rfl | h)
        · exact Or.inr hx
        · exact h
    · rw [List.cons_append, dedupFirstAux_cons_not_mem (xs ++ ys) hx, ih ys (x :: seen),
        dedupFirstAux_cons_not_mem xs hx, List.cons_append]
      congr 2
      refine dedupFirstAux_congr ys _ _ ?_
      intro a _
      simp only [List.cons_append, List.mem_cons, List.mem_append]
      tauto

theorem filter_dedupFirstAux_eq_nil [DecidableEq α] (l : List α) (C : α → Bool) :
    ∀ seen : List α, (∀ t ∈ l, C t = true → t ∈ seen) →
      (dedupFirstAux seen l).filter C = [] := by
  induction l with
  | nil => intro seen _; rfl
  | cons x xs ih =>
    intro seen hsub
    by_cases hx : x ∈ seen
    · rw [dedupFirstAux_cons_mem xs hx]
      exact ih seen (fun t ht => hsub t (List.mem_cons_of_mem x ht))
    · rw [dedupFirstAux_cons_not_mem xs hx]
      have hcx : C x = false := by
        cases hCx : C x
        · rfl
        · exact absurd (hsub x (List.mem_cons_self x xs) hCx) hx
      rw [List.filter_cons_of_neg (by simp [hcx])]
      exact ih (x :: seen)
        (fun t ht hC => List.mem_cons_of_mem x (hsub t (List.mem_cons_of_mem x ht) hC))

theorem dedupFirstAux_filter [DecidableEq α] (l : List α) (p : α → Bool) :
    ∀ seen : List α, dedupFirstAux seen (l.filter p) = (dedupFirstAux seen l).filter p := by
  induction l with
  | nil => intro seen; rfl
  | cons x xs ih =>
    intro seen
    by_cases hp : p x = true
    · rw [List.filter_cons_of_pos hp]
      by_cases hx : x ∈ seen
      · rw [dedupFirstAux_cons_mem _ hx, dedupFirstAux_cons_mem xs hx, ih seen]
      · rw [dedupFirstAux_cons_not_mem _ hx, dedupFirstAux_cons_not_mem xs hx,
          List.filter_cons_of_pos hp, ih (x :: seen)]
    · have hp' : p x = false := Bool.eq_false_iff.mpr hp
      rw [List.filter_cons_of_neg (by simp [hp'])]
      by_cases hx : x ∈ seen
      · rw [dedupFirstAux_cons_mem xs hx, ih seen]
      · rw [dedupFirstAux_cons_not_mem xs hx, List.filter_cons_of_neg (by simp [hp']),
          ← ih (x :: seen)]
        refine dedupFirstAux_congr _ _ _ ?_
        intro a ha
        have hpa : p a = true := (List.mem_filter.mp ha).2
        have hax : a ≠ x := by
          intro h
          rw [h, hp'] at hpa
          exact Bool.noConfusion hpa
        rw [List.mem_cons]
        simp [hax]

theorem get_unparsable_arguments_cons (r : List Token) (rest : List (List Token)) :
    get_unparsable_arguments (r :: rest) =
      (dedupFirst (r :: rest).flatten).filter
        (fun t => (r :: rest).all (fun s => decide (t ∈ s))) := by
  rw [get_unparsable_arguments, if_neg (by simp)]

/-- C7, counterexample to the claim as stated: a single run that itself
contains a duplicate token is *not* returned unchanged — the verifier
deduplicates it. -/
theorem get_unparsable_arguments_dedups_single_run :
    get_unparsable_arguments [["--x", "--x"]] ≠ ["--x", "--x"] := by decide

/-- C7 (amended): `get_unparsable_arguments` returns the ordered,
duplicate-free sequence of tokens that remain unconsumed across every run
(the intersection of the runs' leftovers); it returns the empty sequence when
given no runs; given a single *duplicate-free* run it returns exactly that
run's leftovers unchanged; given N identical runs it returns the same result
as for the single run; and given two or more runs whose unconsumed sets are
pairwise disjoint it returns the empty sequence. -/
theorem get_unparsable_arguments_spec :
    get_unparsable_arguments [] = [] ∧
    (∀ r : List Token, r.Nodup → get_unparsable_arguments [r] = r) ∧
    (∀ (n : Nat) (r : List Token), n ≠ 0 →
      get_unparsable_arguments (List.replicate n r) = get_unparsable_arguments [r]) ∧
    (∀ runs : List (List Token), 2 ≤ runs.length →
      runs.Pairwise (fun r s => ∀ t ∈ r, t ∉ s) →
      get_unparsable_arguments runs = []) ∧
    (∀ runs : List (List Token), (get_unparsable_arguments runs).Nodup ∧
      ∀ t ∈ get_unparsable_arguments runs, ∀ r ∈ runs, t ∈ r) := by
  refine ⟨rfl, ?_, ?_, ?_, ?_⟩
  · intro r hnd
    rw [get_unparsable_arguments_cons]
    have hfl : ([r] : List (List Token)).flatten = r := by simp
    rw [hfl]
    rw [List.filter_eq_self.mpr ?_, dedupFirst_eq_self r hnd]
    intro a ha
    have har : a ∈ r := (mem_dedupFirst r a).mp ha
    simp [har]
  · intro n r hn
    cases n with
    | zero => exact absurd rfl hn
    | succ m =>
      rw [List.replicate_succ, get_unparsable_arguments_cons, get_unparsable_arguments_cons]
      have hsub : ∀ t ∈ (List.replicate m r).flatten, t ∈ r ++ [] := by
        intro t ht
        rcases List.mem_flatten.mp ht with ⟨s, hs, hts⟩
        rw [List.eq_of_mem_replicate hs] at hts
        simp [hts]
      have hd : dedupFirst (List.flatten (r :: List.replicate m r)) = dedupFirst (([r] : List (List Token)).flatten) := by
        rw [List.flatten_cons]
        unfold dedupFirst
        rw [dedupFirstAux_append r]
        rw [dedupFirstAux_eq_nil _ _ hsub]
        simp
      rw [hd]
      refine List.filter_congr ?_
      intro a ha
      have har : a ∈ r := by
        have := (mem_dedupFirst _ a).mp ha
        simpa using this
      rw [Bool.eq_iff_iff, List.all_eq_true, List.all_eq_true]
      constructor
      · intro _ s hs
        rw [List.mem_singleton] at hs
        subst hs
        simp [har]
      · intro _ s hs
        rcases List.mem_cons.mp hs with h | h
        · subst h; simp [har]
        · rw [List.eq_of_mem_replicate h]; simp [har]
  · intro runs hlen hpw
    rcases runs with _ | ⟨r₁, runs'⟩
    · rfl
    rcases runs' with _ | ⟨r₂, rest⟩
    · simp at hlen
    rw [get_unparsable_arguments_cons]
    refine List.filter_eq_nil_iff.mpr ?_
    intro a _
    intro hall
    rw [List.all_eq_true] at hall
    have h1 : a ∈ r₁ := by
      have := hall r₁ (by simp)
      simpa using this
    have h2 : a ∈ r₂ := by
      have := hall r₂ (by simp)
      simpa using this
    have hdisj := (List.pairwise_cons.mp hpw).1 r₂ (by simp)
    exact hdisj a h1 h2
  · intro runs
    constructor
    · rcases runs with _ | ⟨r, rest⟩
      · simp [get_unparsable_arguments]
      · rw [get_unparsable_arguments_cons]
        exact (nodup_dedupFirstAux _ _).filter _
    · intro t ht s hs
      rcases runs with _ | ⟨r, rest⟩
      · simp at hs
      · rw [get_unparsable_arguments_cons] at ht
        have := (List.mem_filter.mp ht).2
        rw [List.all_eq_true] at this
        have := this s hs
        simpa using this

/-- Witness for the amended C7 theorem at concrete inputs. -/
theorem get_unparsable_arguments_spec_witness :
    get_unparsable_arguments [["--latest", "archive"]] = ["--latest", "archive"] ∧
    get_unparsable_arguments (List.replicate 3 ["--x"]) = get_unparsable_arguments [["--x"]] ∧
    get_unparsable_arguments [["a"], ["b"]] = [] :=
  ⟨get_unparsable_arguments_spec.2.1 ["--latest", "archive"] (by decide),
   get_unparsable_arguments_spec.2.2.1 3 ["--x"] (by decide),
   get_unparsable_arguments_spec.2.2.2.1 [["a"], ["b"]] (by decide) (by decide)⟩

/-! ### Ordered-mapping lemmas -/

theorem key_mem_iff_any (m : List (String × β)) (k : String) :
    m.any (fun p => p.1 == k) = true ↔ k ∈ m.map Prod.fst := by
  rw [List.any_eq_true, List.mem_map]
  constructor
  · rintro ⟨p, hp, he⟩
    exact ⟨p, hp, beq_iff_eq.mp he⟩
  · rintro ⟨p, hp, he⟩
    exact ⟨p, hp, beq_iff_eq.mpr he⟩

theorem lookup_eq_none_of_key_not_mem (m : List (String × β)) (k : String)
    (h : k ∉ m.map Prod.fst) : m.lookup k = none := by
  rw [List.lookup_eq_none_iff]
  intro p hp
  simp only [bne_iff_ne, ne_eq]
  intro he
  exact h (he ▸ List.mem_map_of_mem Prod.fst hp)

theorem lookup_map_update_self (m : List (String × β)) (k : String) (v : β)
    (h : k ∈ m.map Prod.fst) :
    (m.map (fun p => if p.1 = k then (k, v) else p)).lookup k = some v := by
  induction m with
  | nil => simp at h
  | cons p m ih =>
    obtain ⟨a, b⟩ := p
    by_cases hp : a = k
    · subst hp
      simp
    · have hka : k ≠ a := fun hh => hp hh.symm
      simp only [List.map_cons, if_neg hp, List.lookup_cons,
        show (k == a) = false by simp [hka]]
      refine ih ?_
      simp only [List.map_cons, List.mem_cons] at h
      rcases h with h1 | h1
      · exact absurd h1.symm hp
      · exact h1

theorem lookup_map_update_ne (m : List (String × β)) (k k' : String) (v : β)
    (hne : k' ≠ k) :
    (m.map (fun p => if p.1 = k then (k, v) else p)).lookup k' = m.lookup k' := by
  induction m with
  | nil => rfl
  | cons p m ih =>
    obtain ⟨a, b⟩ := p
    by_cases hp : a = k
    · subst hp
      simp only [List.map_cons, if_pos rfl, if_true, List.lookup_cons,
        show (k' == a) = false by simp [hne]]
      exact ih
    · simp only [List.map_cons, if_neg hp, List.lookup_cons]
      by_cases hk : k' = a
      · simp only [show (k' == a) = true by simp [hk]]
      · simp only [show (k' == a) = false by simp [hk]]
        exact ih

theorem insertOrUpdate_lookup_self (m : List (String × β)) (k : String) (v : β) :
    (insertOrUpdate m k v).lookup k = some v := by
  rw [insertOrUpdate]
  by_cases h : m.any (fun p => p.1 == k) = true
  · rw [if_pos h]
    exact lookup_map_update_self m k v ((key_mem_iff_any m k).mp h)
  · rw [if_neg h, List.lookup_append,
      lookup_eq_none_of_key_not_mem m k (fun hm => h ((key_mem_iff_any m k).mpr hm))]
    simp

theorem insertOrUpdate_lookup_ne (m : List (String × β)) (k k' : String) (v : β)
    (hne : k' ≠ k) :
    (insertOrUpdate m k v).lookup k' = m.lookup k' := by
  rw [insertOrUpdate]
  by_cases h : m.any (fun p => p.1 == k) = true
  · rw [if_pos h]
    exact lookup_map_update_ne m k k' v hne
  · rw [if_neg h, List.lookup_append]
    rw [List.lookup_cons, show (k' == k) = false by simp [hne]]
    simp [Option.or_none]

theorem insertOrUpdate_keys (m : List (String × β)) (k : String) (v : β) :
    (insertOrUpdate m k v).map Prod.fst =
      if k ∈ m.map Prod.fst then m.map Prod.fst else m.map Prod.fst ++ [k] := by
  rw [insertOrUpdate]
  by_cases h : m.any (fun p => p.1 == k) = true
  · have hmem := (key_mem_iff_any m k).mp h
    rw [if_pos h, if_pos hmem, List.map_map]
    refine List.map_congr_left ?_
    intro p _
    by_cases hp : p.1 = k
    · simp [Function.comp, hp]
    · simp [Function.comp, hp]
  · have hmem : k ∉ m.map Prod.fst := fun hm => h ((key_mem_iff_any m k).mpr hm)
    rw [if_neg h, if_neg hmem]
    simp

theorem foldl_insertOrUpdate_keys (ps : List (String × β)) :
    ∀ acc : List (String × β),
      ((ps.foldl (fun acc p => insertOrUpdate acc p.1 p.2) acc).map Prod.fst) =
        acc.map Prod.fst ++ dedupFirstAux (acc.map Prod.fst) (ps.map Prod.fst) := by
  induction ps with
  | nil => intro acc; simp [dedupFirstAux]
  | cons p ps ih =>
    intro acc
    rw [List.foldl_cons, ih (insertOrUpdate acc p.1 p.2), insertOrUpdate_keys]
    by_cases h : p.1 ∈ acc.map Prod.fst
    · rw [if_pos h, List.map_cons, dedupFirstAux_cons_mem _ h]
    · rw [if_neg h, List.map_cons, dedupFirstAux_cons_not_mem _ h, List.append_assoc,
        List.singleton_append]
      congr 1
      congr 1
      refine dedupFirstAux_congr _ _ _ ?_
      intro a _
      simp only [List.mem_append, List.mem_cons, List.mem_singleton]
      tauto

theorem foldl_insertOrUpdate_lookup (ps : List (String × β)) :
    ∀ (acc : List (String × β)) (k : String),
      (ps.foldl (fun acc p => insertOrUpdate acc p.1 p.2) acc).lookup k =
        Option.or (ps.reverse.lookup k) (acc.lookup k) := by
  induction ps with
  | nil => intro acc k; simp
  | cons p ps ih =>
    intro acc k
    rw [List.foldl_cons, ih (insertOrUpdate acc p.1 p.2) k, List.reverse_cons,
      List.lookup_append]
    by_cases hk : k = p.1
    · have h1 : (insertOrUpdate acc p.1 p.2).lookup k = some p.2 := by
        rw [hk]; exact insertOrUpdate_lookup_self acc p.1 p.2
      have h2 : ([p] : List (String × β)).lookup k = some p.2 := by
        obtain ⟨a, b⟩ := p
        rw [List.lookup_cons, show (k == a) = true by simp [hk]]
      rw [h1, h2]
      cases ps.reverse.lookup k <;> simp
    · have h1 : (insertOrUpdate acc p.1 p.2).lookup k = acc.lookup k :=
        insertOrUpdate_lookup_ne acc p.1 k p.2 hk
      have h2 : ([p] : List (String × β)).lookup k = none := by
        obtain ⟨a, b⟩ := p
        rw [List.lookup_cons, show (k == a) = false by simp [hk]]
        rfl
      rw [h1, h2]
      cases ps.reverse.lookup k <;> simp

/-! ### Dispatcher path lemmas -/

theorem parse_action_path (unparsed : List Token) (reg : Registry α)
    (aliases : AliasTable) (defaults : List String)
    (hocc : ((classifyTop (isAction reg aliases) unparsed).2.1).isEmpty = false) :
    parse_subparser_arguments unparsed reg aliases defaults =
      .ok (buildMapping (actionResults (classifyTop (isAction reg aliases) unparsed).1
            (classifyTop (isAction reg aliases) unparsed).2.1
            (classifyTop (isAction reg aliases) unparsed).2.2),
        get_unparsable_arguments (leftoverRuns
          (classifiedTokens (classifyTop (isAction reg aliases) unparsed).1
            (classifyTop (isAction reg aliases) unparsed).2.1)
          (actionResults (classifyTop (isAction reg aliases) unparsed).1
            (classifyTop (isAction reg aliases) unparsed).2.1
            (classifyTop (isAction reg aliases) unparsed).2.2))) := by
  rw [parse_subparser_arguments, if_neg (by simp [hocc])]

theorem parse_default_path (unparsed : List Token) (reg : Registry α)
    (aliases : AliasTable) (defaults : List String)
    (hocc : ((classifyTop (isAction reg aliases) unparsed).2.1).isEmpty = true)
    (hne : unparsed.isEmpty = false)
    (hdef : (!defaults.isEmpty && defaults.all (fun d => (reg.lookup d).isSome)) = true) :
    parse_subparser_arguments unparsed reg aliases defaults =
      .ok (buildMapping (defaultResults unparsed reg defaults),
        get_unparsable_arguments
          (leftoverRuns unparsed (defaultResults unparsed reg defaults))) := by
  rw [parse_subparser_arguments, if_pos hocc, if_neg (by simp [hne]), if_pos hdef]

theorem parse_error_path (unparsed : List Token) (reg : Registry α)
    (aliases : AliasTable) (defaults : List String)
    (hocc : ((classifyTop (isAction reg aliases) unparsed).2.1).isEmpty = true)
    (hne : unparsed.isEmpty = false)
    (hdef : (!defaults.isEmpty && defaults.all (fun d => (reg.lookup d).isSome)) = false) :
    parse_subparser_arguments unparsed reg aliases defaults =
      .error "Unrecognized action" := by
  rw [parse_subparser_arguments, if_pos hocc, if_neg (by simp [hne]),
    if_neg (by simp [hdef])]

theorem actionResults_names (pre : List Token) (occs : List (Occ α))
    (captured : Option (List Token)) :
    (actionResults pre occs captured).map Prod.fst = occs.map Occ.name := by
  rw [actionResults, List.map_map]
  refine List.map_congr_left ?_
  intro o _
  simp only [Function.comp_apply]
  by_cases h : o.name = passThroughName
  · simp [h]
  · simp [h]

theorem buildMapping_eq_foldl_pairs (rs : List (String × Namespace α × List Token)) :
    buildMapping rs = (rs.map (fun r => (r.1, r.2.1))).foldl
      (fun acc p => insertOrUpdate acc p.1 p.2) [] := by
  rw [buildMapping, List.foldl_map]

theorem lookup_map_pair (rs : List (String × γ × δ)) (k : String) :
    ((rs.map (fun r => (r.1, r.2.1))).lookup k) = (rs.lookup k).map Prod.fst := by
  induction rs with
  | nil => rfl
  | cons r rs ih =>
    obtain ⟨a, b, c⟩ := r
    rw [List.map_cons, List.lookup_cons, List.lookup_cons]
    by_cases hk : k = a
    · simp [show (k == a) = true by simp [hk]]
    · simp only [show (k == a) = false by simp [hk]]
      exact ih

theorem buildMapping_keys (rs : List (String × Namespace α × List Token)) :
    (buildMapping rs).map Prod.fst = dedupFirst (rs.map Prod.fst) := by
  rw [buildMapping_eq_foldl_pairs, foldl_insertOrUpdate_keys]
  simp only [List.map_nil, List.nil_append, List.map_map]
  rw [dedupFirst]
  congr 1

theorem buildMapping_lookup (rs : List (String × Namespace α × List Token)) (k : String) :
    (buildMapping rs).lookup k = (rs.reverse.lookup k).map Prod.fst := by
  rw [buildMapping_eq_foldl_pairs, foldl_insertOrUpdate_lookup]
  simp only [List.lookup_nil, Option.or_none]
  rw [← List.map_reverse]
  exact lookup_map_pair rs.reverse k

/-! ### Claim C2: command-line ordering and overwrite semantics -/

/-- C2: for every input token sequence containing at least one recognized
action name, the Result Mapping returned by `parse_subparser_arguments` is
keyed in the order in which each canonical action name first appeared on the
command line (the first-occurrence deduplication of the classifier's
occurrence names), and the value stored under each name is the parsed
arguments of the *last* occurrence of that name (later occurrences overwrite
earlier ones while the first occurrence fixes the key's position). -/
theorem parse_subparser_arguments_ordering (unparsed : List Token) (reg : Registry α)
    (aliases : AliasTable) (defaults : List String)
    (hocc : ((classifyTop (isAction reg aliases) unparsed).2.1).isEmpty = false) :
    ∃ (m : List (String × Namespace α)) (l : List Token),
      parse_subparser_arguments unparsed reg aliases defaults = .ok (m, l) ∧
      m.map Prod.fst =
        dedupFirst (((classifyTop (isAction reg aliases) unparsed).2.1).map Occ.name) ∧
      ∀ k : String, m.lookup k =
        ((actionResults (classifyTop (isAction reg aliases) unparsed).1
            (classifyTop (isAction reg aliases) unparsed).2.1
            (classifyTop (isAction reg aliases) unparsed).2.2).reverse.lookup k).map
          Prod.fst := by
  rw [parse_action_path unparsed reg aliases defaults hocc]
  refine ⟨_, _, rfl, ?_, ?_⟩
  · rw [buildMapping_keys, actionResults_names]
  · intro k
    exact buildMapping_lookup _ k

/-- A mock delegate that reports a fixed namespace and consumed echo
regardless of its input, as the unit tests' flexmock delegates do. -/
def mockSp (tag : Nat) (echo : List Token) : Subparser Nat :=
  ⟨fun _ => (⟨tag, []⟩, echo)⟩

/-- The two-action registry of the command-line-ordering unit test. -/
def mockRegistryOrdering : Registry Nat :=
  [("action", mockSp 1 ["action", "--foo", "true"]), ("other", mockSp 2 ["other"])]

/-- Witness for C2 at the ordering unit test's input: the mapping lists
"other" before "action" because "other" appeared first. -/
theorem parse_subparser_arguments_ordering_witness :
    ∃ (m : List (String × Namespace Nat)) (l : List Token),
      parse_subparser_arguments ["other", "--foo", "true", "action"]
          mockRegistryOrdering [] [] = .ok (m, l) ∧
      m.map Prod.fst =
        dedupFirst (((classifyTop (isAction mockRegistryOrdering [])
          ["other", "--foo", "true", "action"]).2.1).map Occ.name) ∧
      ∀ k : String, m.lookup k =
        ((actionResults (classifyTop (isAction mockRegistryOrdering [])
              ["other", "--foo", "true", "action"]).1
            (classifyTop (isAction mockRegistryOrdering [])
              ["other", "--foo", "true", "action"]).2.1
            (classifyTop (isAction mockRegistryOrdering [])
              ["other", "--foo", "true", "action"]).2.2).reverse.lookup k).map
          Prod.fst :=
  parse_subparser_arguments_ordering ["other", "--foo", "true", "action"]
    mockRegistryOrdering [] [] (by decide)

/-! ### Claims C4 and C6: default substitution and the no-action error -/

theorem classifyTop_no_actions (isAct : Token → Option (String × Subparser α))
    (l : List Token) (h : ∀ t ∈ l, (isAct t).isNone = true) :
    classifyTop isAct l = (l, [], none) := by
  induction l with
  | nil => rfl
  | cons t rest ih =>
    have ht : isAct t = none :=
      Option.isNone_iff_eq_none.mp (h t (List.mem_cons_self t rest))
    simp only [classifyTop, ht]
    rw [ih (fun u hu => h u (List.mem_cons_of_mem t hu))]

theorem foldl_insertOrUpdate_of_fresh (ps : List (String × β)) :
    ∀ acc : List (String × β),
      (∀ k ∈ ps.map Prod.fst, k ∉ acc.map Prod.fst) → (ps.map Prod.fst).Nodup →
      ps.foldl (fun acc p => insertOrUpdate acc p.1 p.2) acc = acc ++ ps := by
  induction ps with
  | nil => intro acc _ _; simp
  | cons p ps ih =>
    intro acc hfresh hnd
    have hp1 : p.1 ∉ acc.map Prod.fst := hfresh p.1 (by simp)
    have hany : acc.any (fun q => q.1 == p.1) = false := by
      rw [Bool.eq_false_iff]
      intro hc
      exact hp1 ((key_mem_iff_any acc p.1).mp hc)
    have hnd0 : (p.1 :: ps.map Prod.fst).Nodup := by
      rw [List.map_cons] at hnd
      exact hnd
    have hnd' := List.nodup_cons.mp hnd0
    rw [List.foldl_cons, insertOrUpdate, if_neg (by simp [hany])]
    rw [ih (acc ++ [(p.1, p.2)]) ?_ hnd'.2]
    · simp
    · intro k hk
      rw [List.map_append]
      simp only [List.mem_append, List.map_cons, List.map_nil, List.mem_singleton]
      rintro (hka | hkp)
      · exact hfresh k (List.mem_cons_of_mem _ hk) hka
      · exact hnd'.1 (hkp ▸ hk)

theorem defaultResults_names (unparsed : List Token) (reg : Registry α)
    (defaults : List String)
    (hall : defaults.all (fun d => (reg.lookup d).isSome) = true) :
    (defaultResults unparsed reg defaults).map Prod.fst = defaults := by
  induction defaults with
  | nil => rfl
  | cons d ds ih =>
    rw [List.all_cons, Bool.and_eq_true] at hall
    rcases Option.isSome_iff_exists.mp hall.1 with ⟨sp, hsp⟩
    rw [defaultResults, List.filterMap_cons, hsp]
    simp only [Option.map_some']
    rw [List.map_cons]
    congr 1
    exact ih hall.2

theorem buildMapping_of_nodup_keys (rs : List (String × Namespace α × List Token))
    (hnd : (rs.map Prod.fst).Nodup) :
    buildMapping rs = rs.map (fun r => (r.1, r.2.1)) := by
  rw [buildMapping_eq_foldl_pairs, foldl_insertOrUpdate_of_fresh _ [] (by simp) ?_]
  · simp
  · have : (rs.map (fun r => (r.1, r.2.1))).map Prod.fst = rs.map Prod.fst := by
      rw [List.map_map]
      rfl
    rw [this]
    exact hnd

/-- C4: for every non-empty input token sequence containing no recognized
action name (and no alias of one), `parse_subparser_arguments` substitutes
the Default Action Set: each default action's delegate parses the full
original token sequence, the Result Mapping holds exactly the default
actions' canonical names in their registered order, and the merged
per-delegate leftovers become the overall Leftover Tokens. -/
theorem parse_subparser_arguments_defaults (unparsed : List Token) (reg : Registry α)
    (aliases : AliasTable) (defaults : List String)
    (hno : ∀ t ∈ unparsed, (isAction reg aliases t).isNone = true)
    (hne : unparsed.isEmpty = false)
    (hdne : defaults.isEmpty = false)
    (hall : defaults.all (fun d => (reg.lookup d).isSome) = true)
    (hnd : defaults.Nodup) :
    parse_subparser_arguments unparsed reg aliases defaults =
      .ok ((defaultResults unparsed reg defaults).map (fun r => (r.1, r.2.1)),
        get_unparsable_arguments
          (leftoverRuns unparsed (defaultResults unparsed reg defaults))) ∧
    ((defaultResults unparsed reg defaults).map (fun r => (r.1, r.2.1))).map Prod.fst
      = defaults := by
  have hkeys : (defaultResults unparsed reg defaults).map Prod.fst = defaults :=
    defaultResults_names unparsed reg defaults hall
  have hpairkeys :
      ((defaultResults unparsed reg defaults).map (fun r => (r.1, r.2.1))).map Prod.fst
        = defaults := by
    rw [List.map_map]
    rw [show ((defaultResults unparsed reg defaults).map
      (Prod.fst ∘ fun r => (r.1, r.2.1))) =
      (defaultResults unparsed reg defaults).map Prod.fst from rfl]
    exact hkeys
  refine ⟨?_, hpairkeys⟩
  have hcl := classifyTop_no_actions (isAction reg aliases) unparsed hno
  rw [parse_default_path unparsed reg aliases defaults (by rw [hcl]; rfl) hne
    (by simp [hdne, hall]),
    buildMapping_of_nodup_keys _ (by rw [hkeys]; exact hnd)]

/-- The default-action registry of the default-substitution unit test. -/
def mockRegistryDefaults : Registry Nat :=
  [("prune", mockSp 1 ["prune", "--progress"]), ("compact", mockSp 2 []),
    ("create", mockSp 3 []), ("check", mockSp 4 []), ("other", mockSp 5 ["other"])]

/-- Witness for C4 at the default-substitution unit test's input. -/
theorem parse_subparser_arguments_defaults_witness :
    parse_subparser_arguments ["--progress"] mockRegistryDefaults []
        ["prune", "compact", "create", "check"] =
      .ok ((defaultResults ["--progress"] mockRegistryDefaults
            ["prune", "compact", "create", "check"]).map (fun r => (r.1, r.2.1)),
        get_unparsable_arguments
          (leftoverRuns ["--progress"] (defaultResults ["--progress"] mockRegistryDefaults
            ["prune", "compact", "create", "check"]))) ∧
    ((defaultResults ["--progress"] mockRegistryDefaults
        ["prune", "compact", "create", "check"]).map
      (fun r => (r.1, r.2.1))).map Prod.fst = ["prune", "compact", "create", "check"] :=
  parse_subparser_arguments_defaults ["--progress"] mockRegistryDefaults []
    ["prune", "compact", "create", "check"] (by decide) (by decide) (by decide)
    (by decide) (by decide)

/-- C6: a non-empty token sequence containing no recognized action name,
resolved against a registry to which the Default Action Set cannot be
applied (here: no "config" action registered and the default actions not
all registered), raises the unrecognized-action error instead of returning
a result. -/
theorem parse_subparser_arguments_no_action_error (unparsed : List Token)
    (reg : Registry α) (aliases : AliasTable) (defaults : List String)
    (hno : ∀ t ∈ unparsed, (isAction reg aliases t).isNone = true)
    (hne : unparsed.isEmpty = false)
    (hdef : (!defaults.isEmpty && defaults.all (fun d => (reg.lookup d).isSome)) = false) :
    parse_subparser_arguments unparsed reg aliases defaults =
      .error "Unrecognized action" := by
  have hcl := classifyTop_no_actions (isAction reg aliases) unparsed hno
  exact parse_error_path unparsed reg aliases defaults (by rw [hcl]; rfl) hne hdef

/-- A registry with no "config" action and without the default actions. -/
def mockRegistryNoConfig : Registry Nat := [("rcreate", mockSp 9 ["rcreate"])]

/-- Witness for C6: resolving ("config",) against a registry with no
"config" action raises the unrecognized-action error. -/
theorem parse_subparser_arguments_no_action_error_witness :
    parse_subparser_arguments ["config"] mockRegistryNoConfig []
        ["prune", "compact", "create", "check"] = .error "Unrecognized action" :=
  parse_subparser_arguments_no_action_error ["config"] mockRegistryNoConfig []
    ["prune", "compact", "create", "check"] (by decide) (by decide) (by decide)

/-! ### Claim C1: token accounting -/

theorem get_unparsable_filter_runs (L : List Token) (ps : List (Token → Bool))
    (hne : ps ≠ []) :
    get_unparsable_arguments (ps.map (fun p => L.filter p)) =
      (dedupFirst L).filter (fun t => ps.all (fun p => p t)) := by
  rcases ps with _ | ⟨p₁, ps'⟩
  · exact absurd rfl hne
  rw [List.map_cons, get_unparsable_arguments_cons]
  rw [show (L.filter p₁ :: ps'.map (fun p => L.filter p)).flatten
      = L.filter p₁ ++ (ps'.map (fun p => L.filter p)).flatten from rfl]
  rw [dedupFirst, dedupFirstAux_append, List.filter_append]
  have hnil : (dedupFirstAux (L.filter p₁ ++ [])
      ((ps'.map (fun p => L.filter p)).flatten)).filter
      (fun t => (L.filter p₁ :: ps'.map (fun p => L.filter p)).all
        (fun s => decide (t ∈ s))) = [] := by
    refine filter_dedupFirstAux_eq_nil _ _ _ ?_
    intro t _ hC
    rw [List.all_eq_true] at hC
    have h1 := hC (L.filter p₁) (List.mem_cons_self _ _)
    rw [decide_eq_true_eq] at h1
    exact List.mem_append_left [] h1
  rw [hnil, List.append_nil, dedupFirstAux_filter, ← dedupFirst, List.filter_filter]
  refine List.filter_congr ?_
  intro t ht
  have htL : t ∈ L := (mem_dedupFirst L t).mp ht
  rw [Bool.eq_iff_iff]
  simp only [Bool.and_eq_true, List.all_cons, List.all_eq_true, decide_eq_true_eq,
    List.forall_mem_map, List.mem_filter, htL, true_and]
  tauto

theorem classifyRuns_decomp (isAct : Token → Option (String × Subparser α))
    (l : List Token) :
    ∀ (tok : Token) (nm : String) (sp : Subparser α) (win : List Token),
      ∃ win' occs',
        (classifyRuns isAct tok nm sp win l).1 = ⟨tok, nm, sp, win ++ win'⟩ :: occs' ∧
        l = win' ++ (occs'.map (fun o => o.tok :: o.window)).flatten ++
          ((classifyRuns isAct tok nm sp win l).2.getD []) := by
  induction l with
  | nil =>
    intro tok nm sp win
    exact ⟨[], [], by simp [classifyRuns], by simp [classifyRuns]⟩
  | cons t rest ih =>
    intro tok nm sp win
    cases hact : isAct t with
    | none =>
      rcases ih tok nm sp (win ++ [t]) with ⟨w', occs', h1, h2⟩
      refine ⟨t :: w', occs', ?_, ?_⟩
      · simp only [classifyRuns, hact]
        rw [h1]
        simp [List.append_assoc]
      · simp only [classifyRuns, hact]
        rw [List.cons_append, List.cons_append]
        congr 1
    | some csp =>
      obtain ⟨c, sp2⟩ := csp
      by_cases hb : c = passThroughName
      · refine ⟨[], [⟨t, c, sp2, []⟩], ?_, ?_⟩
        · simp [classifyRuns, hact, hb]
        · simp [classifyRuns, hact, hb]
      · rcases ih t c sp2 [] with ⟨w', occs'', h1, h2⟩
        refine ⟨[], ⟨t, c, sp2, w'⟩ :: occs'', ?_, ?_⟩
        · simp only [classifyRuns, hact, if_neg hb]
          rw [h1]
          simp
        · simp only [classifyRuns, hact, if_neg hb, List.nil_append, List.map_cons,
            List.flatten_cons]
          rw [List.cons_append, List.cons_append]
          congr 1

theorem classifyTop_decomp (isAct : Token → Option (String × Subparser α))
    (l : List Token) :
    l = (classifyTop isAct l).1 ++
      (((classifyTop isAct l).2.1).map (fun o => o.tok :: o.window)).flatten ++
      ((classifyTop isAct l).2.2).getD [] := by
  induction l with
  | nil => rfl
  | cons t rest ih =>
    cases hact : isAct t with
    | none =>
      simp only [classifyTop, hact]
      rw [List.cons_append, List.cons_append]
      congr 1
    | some csp =>
      obtain ⟨c, sp2⟩ := csp
      by_cases hb : c = passThroughName
      · simp [classifyTop, hact, hb]
      · simp only [classifyTop, hact, if_neg hb]
        rcases classifyRuns_decomp isAct rest t c sp2 [] with ⟨w', occs', h1, h2⟩
        rw [h1]
        simp only [List.nil_append, List.map_cons, List.flatten_cons]
        rw [List.cons_append, List.cons_append]
        congr 1

theorem classifyRuns_tok_isAct (isAct : Token → Option (String × Subparser α))
    (l : List Token) :
    ∀ (tok : Token) (nm : String) (sp : Subparser α) (win : List Token),
      isAct tok = some (nm, sp) →
      ∀ o ∈ (classifyRuns isAct tok nm sp win l).1,
        isAct o.tok = some (o.name, o.sp) := by
  induction l with
  | nil =>
    intro tok nm sp win htok o ho
    simp only [classifyRuns, List.mem_singleton] at ho
    rw [ho]
    exact htok
  | cons t rest ih =>
    intro tok nm sp win htok o ho
    cases hact : isAct t with
    | none =>
      simp only [classifyRuns, hact] at ho
      exact ih tok nm sp (win ++ [t]) htok o ho
    | some csp =>
      obtain ⟨c, sp2⟩ := csp
      by_cases hb : c = passThroughName
      · simp only [classifyRuns, hact, if_pos hb] at ho
        rcases List.mem_cons.mp ho with rfl | ho2
        · exact htok
        · rw [List.mem_singleton] at ho2
          rw [ho2]
          exact hact
      · simp only [classifyRuns, hact, if_neg hb] at ho
        rcases List.mem_cons.mp ho with rfl | ho2
        · exact htok
        · exact ih t c sp2 [] hact o ho2

theorem classifyTop_tok_isAct (isAct : Token → Option (String × Subparser α))
    (l : List Token) :
    ∀ o ∈ (classifyTop isAct l).2.1, isAct o.tok = some (o.name, o.sp) := by
  induction l with
  | nil => intro o ho; simp [classifyTop] at ho
  | cons t rest ih =>
    intro o ho
    cases hact : isAct t with
    | none =>
      simp only [classifyTop, hact] at ho
      exact ih o ho
    | some csp =>
      obtain ⟨c, sp2⟩ := csp
      by_cases hb : c = passThroughName
      · simp only [classifyTop, hact, if_pos hb, List.mem_singleton] at ho
        rw [ho]
        exact hact
      · simp only [classifyTop, hact, if_neg hb] at ho
        exact classifyRuns_tok_isAct isAct rest t c sp2 [] hact o ho

theorem leftover_eq (ctoks : List Token) (rs : List (String × Namespace α × List Token))
    (hne : rs ≠ []) :
    get_unparsable_arguments (leftoverRuns ctoks rs) =
      (dedupFirst ctoks).filter (fun t => rs.all (fun r => !(decide (t ∈ r.2.2)))) := by
  have h1 : leftoverRuns ctoks rs =
      (rs.map (fun r => (fun t => !(decide (t ∈ r.2.2))))).map (fun p => ctoks.filter p) := by
    rw [leftoverRuns, List.map_map]
    rfl
  have h2 : (rs.map (fun r => (fun t => !(decide (t ∈ r.2.2))))) ≠ [] := by
    intro h
    exact hne (List.map_eq_nil_iff.mp h)
  rw [h1, get_unparsable_filter_runs ctoks _ h2]
  refine List.filter_congr ?_
  intro t _
  rw [Bool.eq_iff_iff]
  simp only [List.all_eq_true, List.forall_mem_map]

/-- C1 (amended): in the action path, the input token sequence decomposes
exactly into the global prefix, the occurrence tokens with their raw
windows, and the pass-through captured tail; the returned Leftover Tokens
are exactly the duplicate-free, input-ordered classified tokens absent from
every delegate's consumed echo; hence every input token appears in some
delegate's consumed echo, in Leftover Tokens, in the pass-through captured
options, or is itself a recognized action-name token.  The multiset form of
the claim fails because the global prefix reaches every delegate and can be
claimed by several of them (see the counterexample). -/
theorem parse_subparser_arguments_completeness (unparsed : List Token)
    (reg : Registry α) (aliases : AliasTable) (defaults : List String)
    (hocc : ((classifyTop (isAction reg aliases) unparsed).2.1).isEmpty = false) :
    parse_subparser_arguments unparsed reg aliases defaults =
      .ok (buildMapping (actionResults (classifyTop (isAction reg aliases) unparsed).1
            (classifyTop (isAction reg aliases) unparsed).2.1
            (classifyTop (isAction reg aliases) unparsed).2.2),
        (dedupFirst (classifiedTokens (classifyTop (isAction reg aliases) unparsed).1
            (classifyTop (isAction reg aliases) unparsed).2.1)).filter
          (fun t => (actionResults (classifyTop (isAction reg aliases) unparsed).1
              (classifyTop (isAction reg aliases) unparsed).2.1
              (classifyTop (isAction reg aliases) unparsed).2.2).all
            (fun r => !(decide (t ∈ r.2.2))))) ∧
    unparsed = (classifyTop (isAction reg aliases) unparsed).1 ++
      (((classifyTop (isAction reg aliases) unparsed).2.1).map
        (fun o => o.tok :: o.window)).flatten ++
      ((classifyTop (isAction reg aliases) unparsed).2.2).getD [] ∧
    ∀ t ∈ unparsed,
      (∃ r ∈ actionResults (classifyTop (isAction reg aliases) unparsed).1
          (classifyTop (isAction reg aliases) unparsed).2.1
          (classifyTop (isAction reg aliases) unparsed).2.2, t ∈ r.2.2) ∨
      t ∈ (dedupFirst (classifiedTokens (classifyTop (isAction reg aliases) unparsed).1
          (classifyTop (isAction reg aliases) unparsed).2.1)).filter
        (fun t => (actionResults (classifyTop (isAction reg aliases) unparsed).1
            (classifyTop (isAction reg aliases) unparsed).2.1
            (classifyTop (isAction reg aliases) unparsed).2.2).all
          (fun r => !(decide (t ∈ r.2.2)))) ∨
      t ∈ ((classifyTop (isAction reg aliases) unparsed).2.2).getD [] ∨
      (isAction reg aliases t).isSome = true := by
  have hoccne : (classifyTop (isAction reg aliases) unparsed).2.1 ≠ [] := by
    intro h
    rw [h] at hocc
    exact Bool.noConfusion hocc
  have hrsne : actionResults (classifyTop (isAction reg aliases) unparsed).1
      (classifyTop (isAction reg aliases) unparsed).2.1
      (classifyTop (isAction reg aliases) unparsed).2.2 ≠ [] := by
    rw [actionResults]
    intro h
    exact hoccne (List.map_eq_nil_iff.mp h)
  have haccount : ∀ t ∈ classifiedTokens (classifyTop (isAction reg aliases) unparsed).1
      (classifyTop (isAction reg aliases) unparsed).2.1,
      (∃ r ∈ actionResults (classifyTop (isAction reg aliases) unparsed).1
          (classifyTop (isAction reg aliases) unparsed).2.1
          (classifyTop (isAction reg aliases) unparsed).2.2, t ∈ r.2.2) ∨
      t ∈ (dedupFirst (classifiedTokens (classifyTop (isAction reg aliases) unparsed).1
          (classifyTop (isAction reg aliases) unparsed).2.1)).filter
        (fun t => (actionResults (classifyTop (isAction reg aliases) unparsed).1
            (classifyTop (isAction reg aliases) unparsed).2.1
            (classifyTop (isAction reg aliases) unparsed).2.2).all
          (fun r => !(decide (t ∈ r.2.2)))) := by
    intro t htc
    by_cases hex : ∃ r ∈ actionResults (classifyTop (isAction reg aliases) unparsed).1
        (classifyTop (isAction reg aliases) unparsed).2.1
        (classifyTop (isAction reg aliases) unparsed).2.2, t ∈ r.2.2
    · left
      exact hex
    · right
      rw [List.mem_filter]
      refine ⟨(mem_dedupFirst _ t).mpr htc, ?_⟩
      rw [List.all_eq_true]
      intro r hr
      simp only [Bool.not_eq_true', decide_eq_false_iff_not]
      intro hmem
      exact hex ⟨r, hr, hmem⟩
  refine ⟨?_, classifyTop_decomp (isAction reg aliases) unparsed, ?_⟩
  · rw [parse_action_path unparsed reg aliases defaults hocc, leftover_eq _ _ hrsne]
  · intro t ht
    rw [classifyTop_decomp (isAction reg aliases) unparsed] at ht
    rw [List.mem_append, List.mem_append] at ht
    rcases ht with (hpre | hwin) | htail
    · rcases haccount t (List.mem_append_left _ hpre) with h | h
      · exact Or.inl h
      · exact Or.inr (Or.inl h)
    · rcases List.mem_flatten.mp hwin with ⟨s, hs, hts⟩
      rcases List.mem_map.mp hs with ⟨o, ho, rfl⟩
      rcases List.mem_cons.mp hts with rfl | hwin2
      · right; right; right
        rw [classifyTop_tok_isAct (isAction reg aliases) unparsed o ho]
        rfl
      · have htc : t ∈ classifiedTokens (classifyTop (isAction reg aliases) unparsed).1
            (classifyTop (isAction reg aliases) unparsed).2.1 := by
          rw [classifiedTokens]
          refine List.mem_append_right _ ?_
          refine List.mem_flatten.mpr ⟨o.name :: o.window, ?_, List.mem_cons_of_mem _ hwin2⟩
          exact List.mem_map.mpr ⟨o, ho, rfl⟩
        rcases haccount t htc with h | h
        · exact Or.inl h
        · exact Or.inr (Or.inl h)
    · right; right; left
      exact htail

/-- A registry whose two delegates both claim the shared global flag, as the
spec's step 2 explicitly allows ("any global flag reaches every delegate"). -/
def mockRegistryShared : Registry Nat :=
  [("a", mockSp 1 ["--g", "a"]), ("b", mockSp 2 ["--g", "b"])]

/-- C1, counterexample to the claim's multiset form: on ("--g", "a", "b")
both delegates claim the shared global flag "--g", the returned Leftover
Tokens are empty, and the union of the consumed echoes plus the leftovers
counts "--g" twice, so it is not a permutation of the input sequence. -/
theorem parse_subparser_arguments_multiset_counterexample :
    ((parse_subparser_arguments ["--g", "a", "b"] mockRegistryShared [] []).toOption.map
      (fun p => p.2)) = some [] ∧
    ¬ (((actionResults (classifyTop (isAction mockRegistryShared []) ["--g", "a", "b"]).1
          (classifyTop (isAction mockRegistryShared []) ["--g", "a", "b"]).2.1
          (classifyTop (isAction mockRegistryShared []) ["--g", "a", "b"]).2.2).map
        (fun r => r.2.2)).flatten ++ ([] : List Token)).Perm ["--g", "a", "b"] := by
  decide

/-- The registry of the unknown-arguments unit tests: each delegate claims
only its own action name. -/
def mockRegistryUnknownArgs : Registry Nat :=
  [("action", mockSp 1 ["action"]), ("other", mockSp 2 ["other"])]

/-- Witness for the amended C1 at the unknown-arguments unit test input:
the unknown tokens before the action name come back as Leftover Tokens. -/
theorem parse_subparser_arguments_completeness_witness :
    parse_subparser_arguments ["--verbosity", "lots", "action"]
        mockRegistryUnknownArgs [] [] =
      .ok ([("action", ⟨1, []⟩)], ["--verbosity", "lots"]) := by
  have h := parse_subparser_arguments_completeness ["--verbosity", "lots", "action"]
    mockRegistryUnknownArgs [] [] (by decide)
  rw [h.1]
  rfl

/-! ### Claim C5: pass-through capture -/

theorem classifyRuns_passthrough (isAct : Token → Option (String × Subparser α))
    (spB : Subparser α) (tail : List Token)
    (hB : isAct passThroughName = some (passThroughName, spB)) (xs : List Token) :
    ∀ (tok : Token) (nm : String) (sp : Subparser α) (win : List Token),
      nm ≠ passThroughName →
      (∀ u ∈ xs, ∀ c sp2, isAct u = some (c, sp2) → c ≠ passThroughName) →
      ∃ occs',
        classifyRuns isAct tok nm sp win (xs ++ passThroughName :: tail) =
          (occs' ++ [⟨passThroughName, passThroughName, spB, []⟩], some tail) ∧
        (∀ o ∈ occs', o.name ≠ passThroughName) ∧
        (∀ o ∈ occs', o.name = nm ∨ ∃ u ∈ xs, ∃ sp2, isAct u = some (o.name, sp2)) := by
  induction xs with
  | nil =>
    intro tok nm sp win hnm _
    refine ⟨[⟨tok, nm, sp, win⟩], ?_, ?_, ?_⟩
    · simp [classifyRuns, hB]
    · intro o ho
      rw [List.mem_singleton] at ho
      rw [ho]
      exact hnm
    · intro o ho
      rw [List.mem_singleton] at ho
      left
      rw [ho]
  | cons u xs ih =>
    intro tok nm sp win hnm hxs
    cases hact : isAct u with
    | none =>
      rcases ih tok nm sp (win ++ [u]) hnm
        (fun v hv => hxs v (List.mem_cons_of_mem _ hv)) with ⟨occs', h1, h2, h3⟩
      refine ⟨occs', ?_, h2, ?_⟩
      · simp only [List.cons_append, classifyRuns, hact, List.append_eq]
        exact h1
      · intro o ho
        rcases h3 o ho with h | ⟨v, hv, sp3, h4⟩
        · exact Or.inl h
        · exact Or.inr ⟨v, List.mem_cons_of_mem _ hv, sp3, h4⟩
    | some csp =>
      obtain ⟨c, sp2⟩ := csp
      have hc : c ≠ passThroughName := hxs u (List.mem_cons_self _ _) c sp2 hact
      rcases ih u c sp2 [] hc (fun v hv => hxs v (List.mem_cons_of_mem _ hv)) with
        ⟨occs'', h1, h2, h3⟩
      refine ⟨⟨tok, nm, sp, win⟩ :: occs'', ?_, ?_, ?_⟩
      · simp only [List.cons_append, classifyRuns, hact, if_neg hc, List.append_eq]
        rw [h1]
      · intro o ho
        rcases List.mem_cons.mp ho with rfl | ho2
        · exact hnm
        · exact h2 o ho2
      · intro o ho
        rcases List.mem_cons.mp ho with rfl | ho2
        · left
          rfl
        · rcases h3 o ho2 with hname | ⟨v, hv, sp3, h4⟩
          · right
            exact ⟨u, List.mem_cons_self _ _, sp2, by rw [hname]; exact hact⟩
          · right
            exact ⟨v, List.mem_cons_of_mem _ hv, sp3, h4⟩

theorem classifyTop_passthrough (isAct : Token → Option (String × Subparser α))
    (spB : Subparser α) (tail : List Token)
    (hB : isAct passThroughName = some (passThroughName, spB)) (xs : List Token)
    (hxs : ∀ u ∈ xs, ∀ c sp2, isAct u = some (c, sp2) → c ≠ passThroughName) :
    ∃ pre occs',
      classifyTop isAct (xs ++ passThroughName :: tail) =
        (pre, occs' ++ [⟨passThroughName, passThroughName, spB, []⟩], some tail) ∧
      (∀ o ∈ occs', ∃ u ∈ xs, ∃ sp2, isAct u = some (o.name, sp2)) := by
  induction xs with
  | nil =>
    refine ⟨[], [], ?_, ?_⟩
    · simp [classifyTop, hB]
    · intro o ho
      simp at ho
  | cons u xs ih =>
    cases hact : isAct u with
    | none =>
      rcases ih (fun v hv => hxs v (List.mem_cons_of_mem _ hv)) with ⟨pre, occs', h1, h2⟩
      refine ⟨u :: pre, occs', ?_, ?_⟩
      · simp only [List.cons_append, classifyTop, hact, List.append_eq]
        rw [h1]
      · intro o ho
        rcases h2 o ho with ⟨v, hv, sp3, h3⟩
        exact ⟨v, List.mem_cons_of_mem _ hv, sp3, h3⟩
    | some csp =>
      obtain ⟨c, sp2⟩ := csp
      have hc : c ≠ passThroughName := hxs u (List.mem_cons_self _ _) c sp2 hact
      rcases classifyRuns_passthrough isAct spB tail hB xs u c sp2 [] hc
        (fun v hv => hxs v (List.mem_cons_of_mem _ hv)) with ⟨occs'', h1, _, h3⟩
      refine ⟨[], occs'', ?_, ?_⟩
      · simp only [List.cons_append, classifyTop, hact, if_neg hc, List.append_eq]
        rw [h1]
      · intro o ho
        rcases h3 o ho with hname | ⟨v, hv, sp3, h4⟩
        · exact ⟨u, List.mem_cons_self _ _, sp2, by rw [hname]; exact hact⟩
        · exact ⟨v, List.mem_cons_of_mem _ hv, sp3, h4⟩

/-- The pass-through unit test's registry: a "borg" action and a "list"
action. -/
def mockRegistryBorg : Registry Nat :=
  [("borg", mockSp 1 ["borg"]), ("list", mockSp 2 ["list"])]

/-- C5: whenever the pass-through action's name appears, every token
following it is captured verbatim into that action's `options` field, and no
token after it is classified as another action: every Result Mapping key is
either the pass-through action or stems from a token before its name; in
particular, resolving ("borg", "list") against the pass-through unit test's
registry yields exactly the "borg" action with `options = ["list"]` and
empty Leftover Tokens. -/
theorem parse_subparser_arguments_passthrough (pre0 tail : List Token)
    (reg : Registry α) (aliases : AliasTable) (defaults : List String)
    (spB : Subparser α)
    (hB : isAction reg aliases passThroughName = some (passThroughName, spB))
    (hpre : ∀ u ∈ pre0, ∀ c sp2, isAction reg aliases u = some (c, sp2) →
      c ≠ passThroughName) :
    (∃ (m : List (String × Namespace α)) (l : List Token),
      parse_subparser_arguments (pre0 ++ passThroughName :: tail) reg aliases defaults =
        .ok (m, l) ∧
      (∃ ns : Namespace α, m.lookup passThroughName = some ns ∧ ns.options = tail) ∧
      (∀ k ∈ m.map Prod.fst, k = passThroughName ∨
        ∃ u ∈ pre0, ∃ sp2, isAction reg aliases u = some (k, sp2))) ∧
    parse_subparser_arguments [passThroughName, "list"] mockRegistryBorg [] [] =
      .ok ([(passThroughName, ⟨1, ["list"]⟩)], []) := by
  refine ⟨?_, rfl⟩
  rcases classifyTop_passthrough (isAction reg aliases) spB tail hB pre0 hpre with
    ⟨pre, occs', hcl, horigin⟩
  have e1 : (classifyTop (isAction reg aliases) (pre0 ++ passThroughName :: tail)).1
      = pre := by rw [hcl]
  have e2 : (classifyTop (isAction reg aliases) (pre0 ++ passThroughName :: tail)).2.1
      = occs' ++ [⟨passThroughName, passThroughName, spB, []⟩] := by rw [hcl]
  have e3 : (classifyTop (isAction reg aliases) (pre0 ++ passThroughName :: tail)).2.2
      = some tail := by rw [hcl]
  have hocc : ((classifyTop (isAction reg aliases)
      (pre0 ++ passThroughName :: tail)).2.1).isEmpty = false := by
    rw [e2]
    simp
  refine ⟨_, _, parse_action_path _ reg aliases defaults hocc, ?_, ?_⟩
  · refine ⟨{ (spB.parse_known_args (pre ++ passThroughName :: [])).1 with
        options := tail }, ?_, rfl⟩
    rw [buildMapping_lookup, e1, e2, e3]
    rw [show actionResults pre (occs' ++ [⟨passThroughName, passThroughName, spB, []⟩])
        (some tail)
        = actionResults pre occs' (some tail)
          ++ [(passThroughName,
              { (spB.parse_known_args (pre ++ passThroughName :: [])).1 with
                options := tail },
              (spB.parse_known_args (pre ++ passThroughName :: [])).2)] from by
      rw [actionResults, actionResults, List.map_append]
      simp]
    rw [List.reverse_append]
    simp [List.lookup_cons]
  · intro k hk
    rw [buildMapping_keys, e1, e2, e3, actionResults_names, mem_dedupFirst,
      List.map_append] at hk
    rcases List.mem_append.mp hk with h | h
    · rcases List.mem_map.mp h with ⟨o, ho, rfl⟩
      rcases horigin o ho with ⟨u, hu, sp2, h2⟩
      exact Or.inr ⟨u, hu, sp2, h2⟩
    · left
      simpa using h

/-- Witness for C5 at the pass-through unit test's input ("borg", "list"):
the "list" token is captured into the borg action's options and is not
classified as the "list" action, the mapping holds only the "borg" entry,
and the Leftover Tokens are empty. -/
theorem parse_subparser_arguments_passthrough_witness :
    (∃ (m : List (String × Namespace Nat)) (l : List Token),
      parse_subparser_arguments (([] : List Token) ++ passThroughName :: ["list"])
          mockRegistryBorg [] [] = .ok (m, l) ∧
      (∃ ns : Namespace Nat, m.lookup passThroughName = some ns ∧ ns.options = ["list"]) ∧
      (∀ k ∈ m.map Prod.fst, k = passThroughName ∨
        ∃ u ∈ ([] : List Token), ∃ sp2,
          isAction mockRegistryBorg [] u = some (k, sp2))) ∧
    parse_subparser_arguments [passThroughName, "list"] mockRegistryBorg [] [] =
      .ok ([(passThroughName, ⟨1, ["list"]⟩)], []) :=
  parse_subparser_arguments_passthrough [] ["list"] mockRegistryBorg [] []
    (mockSp 1 ["borg"]) rfl (by simp)

/-! ### Claim C3: alias equivalence -/

/-- The occurrence data the dispatcher consumes (everything except the raw
matched token). -/
def occProj (o : Occ α) : String × Subparser α × List Token := (o.name, o.sp, o.window)

theorem actionResults_factor (pre : List Token) (occs : List (Occ α))
    (captured : Option (List Token)) :
    actionResults pre occs captured =
      (occs.map occProj).map (fun q =>
        let r := q.2.1.parse_known_args (pre ++ q.1 :: q.2.2)
        if q.1 = passThroughName then
          (q.1, { r.1 with options := captured.getD [] }, r.2)
        else (q.1, r.1, r.2)) := by
  rw [actionResults, List.map_map]
  rfl

theorem classifiedTokens_factor (pre : List Token) (occs : List (Occ α)) :
    classifiedTokens pre occs =
      pre ++ ((occs.map occProj).map (fun q => q.1 :: q.2.2)).flatten := by
  rw [classifiedTokens, List.map_map]
  rfl

theorem classifyRuns_congr (isAct : Token → Option (String × Subparser α))
    (l₁ l₂ : List Token)
    (hrel : List.Forall₂ (fun x y => isAct y = isAct x ∧
      (((isAct x).isNone = true) → y = x) ∧
      (∀ c2 sp2, isAct x = some (c2, sp2) → c2 ≠ passThroughName)) l₁ l₂) :
    ∀ (tok₁ tok₂ : Token) (nm : String) (sp : Subparser α) (win : List Token),
      (classifyRuns isAct tok₁ nm sp win l₁).1.map occProj =
        (classifyRuns isAct tok₂ nm sp win l₂).1.map occProj ∧
      (classifyRuns isAct tok₁ nm sp win l₁).2 =
        (classifyRuns isAct tok₂ nm sp win l₂).2 := by
  induction hrel with
  | nil =>
    intro tok₁ tok₂ nm sp win
    exact ⟨rfl, rfl⟩
  | @cons x y xs ys hxy hrest ih =>
    intro tok₁ tok₂ nm sp win
    obtain ⟨heq, hnone, hnb⟩ := hxy
    cases hact : isAct x with
    | none =>
      have hyx : y = x := hnone (by rw [hact]; rfl)
      have hy : isAct y = none := by rw [heq, hact]
      simp only [classifyRuns, hact, hy]
      rw [hyx]
      exact ih tok₁ tok₂ nm sp (win ++ [x])
    | some csp =>
      obtain ⟨c, sp2⟩ := csp
      have hy : isAct y = some (c, sp2) := by rw [heq, hact]
      have hb : c ≠ passThroughName := hnb c sp2 hact
      simp only [classifyRuns, hact, hy, if_neg hb]
      obtain ⟨ih1, ih2⟩ := ih x y c sp2 []
      constructor
      · rw [List.map_cons, List.map_cons, ih1]
        rfl
      · exact ih2

theorem classifyTop_congr (isAct : Token → Option (String × Subparser α))
    (l₁ l₂ : List Token)
    (hrel : List.Forall₂ (fun x y => isAct y = isAct x ∧
      (((isAct x).isNone = true) → y = x) ∧
      (∀ c2 sp2, isAct x = some (c2, sp2) → c2 ≠ passThroughName)) l₁ l₂) :
    (classifyTop isAct l₂).1 = (classifyTop isAct l₁).1 ∧
    (classifyTop isAct l₂).2.1.map occProj = (classifyTop isAct l₁).2.1.map occProj ∧
    (classifyTop isAct l₂).2.2 = (classifyTop isAct l₁).2.2 := by
  induction hrel with
  | nil => exact ⟨rfl, rfl, rfl⟩
  | @cons x y xs ys hxy hrest ih =>
    obtain ⟨heq, hnone, hnb⟩ := hxy
    cases hact : isAct x with
    | none =>
      have hyx : y = x := hnone (by rw [hact]; rfl)
      have hy : isAct y = none := by rw [heq, hact]
      obtain ⟨ih1, ih2, ih3⟩ := ih
      refine ⟨?_, ?_, ?_⟩
      · simp only [classifyTop, hact, hy]
        rw [hyx, ih1]
      · simp only [classifyTop, hact, hy]
        exact ih2
      · simp only [classifyTop, hact, hy]
        exact ih3
    | some csp =>
      obtain ⟨c, sp2⟩ := csp
      have hy : isAct y = some (c, sp2) := by rw [heq, hact]
      have hb : c ≠ passThroughName := hnb c sp2 hact
      obtain ⟨h1, h2⟩ := classifyRuns_congr isAct xs ys hrest x y c sp2 []
      refine ⟨?_, ?_, ?_⟩
      · simp only [classifyTop, hact, hy, if_neg hb]
      · simp only [classifyTop, hact, hy, if_neg hb]
        exact h1.symm
      · simp only [classifyTop, hact, hy, if_neg hb]
        exact h2.symm

theorem forall₂_strengthen (reg : Registry α) (aliases : AliasTable) (a c : String)
    (hres : canonicalName aliases a = c) (hcc : canonicalName aliases c = c)
    (hreg : (reg.lookup c).isSome = true) :
    ∀ l₁ l₂, List.Forall₂ (fun x y => y = x ∨ (x = c ∧ y = a)) l₁ l₂ →
      (∀ t ∈ l₁, ∀ c2 sp2, isAction reg aliases t = some (c2, sp2) →
        c2 ≠ passThroughName) →
      List.Forall₂ (fun x y => isAction reg aliases y = isAction reg aliases x ∧
        (((isAction reg aliases x).isNone = true) → y = x) ∧
        (∀ c2 sp2, isAction reg aliases x = some (c2, sp2) → c2 ≠ passThroughName))
        l₁ l₂ := by
  intro l₁ l₂ h
  induction h with
  | nil =>
    intro _
    exact List.Forall₂.nil
  | @cons x y xs ys hxy hrest ih =>
    intro hnb
    refine List.Forall₂.cons ⟨?_, ?_, hnb x (List.mem_cons_self _ _)⟩
      (ih (fun t ht => hnb t (List.mem_cons_of_mem _ ht)))
    · rcases hxy with rfl | ⟨hx, hy⟩
      · rfl
      · rw [hx, hy, isAction, isAction, hres, hcc]
    · intro hnone
      rcases hxy with rfl | ⟨hx, hy⟩
      · rfl
      · exfalso
        rw [hx, isAction, hcc] at hnone
        rcases Option.isSome_iff_exists.mp hreg with ⟨sp, hsp⟩
        rw [hsp] at hnone
        simp at hnone

theorem forall₂_eq_of_none (isAct : Token → Option (String × Subparser α)) :
    ∀ l₁ l₂, List.Forall₂ (fun x y => isAct y = isAct x ∧
      (((isAct x).isNone = true) → y = x) ∧
      (∀ c2 sp2, isAct x = some (c2, sp2) → c2 ≠ passThroughName)) l₁ l₂ →
    (∀ t ∈ l₁, (isAct t).isNone = true) → l₂ = l₁ := by
  intro l₁ l₂ h
  induction h with
  | nil =>
    intro _
    rfl
  | @cons x y xs ys hxy hrest ih =>
    intro hall
    obtain ⟨_, hnone, _⟩ := hxy
    rw [hnone (hall x (List.mem_cons_self _ _)),
      ih (fun t ht => hall t (List.mem_cons_of_mem _ ht))]

theorem classifyTop_occs_nil (isAct : Token → Option (String × Subparser α))
    (l : List Token) (h : (classifyTop isAct l).2.1 = []) :
    ∀ t ∈ l, (isAct t).isNone = true := by
  induction l with
  | nil =>
    intro t ht
    simp at ht
  | cons u rest ih =>
    intro t ht
    cases hact : isAct u with
    | none =>
      rcases List.mem_cons.mp ht with rfl | ht2
      · rw [hact]
        rfl
      · refine ih ?_ t ht2
        simp only [classifyTop, hact] at h
        exact h
    | some csp =>
      obtain ⟨c, sp2⟩ := csp
      exfalso
      by_cases hb : c = passThroughName
      · simp only [classifyTop, hact, if_pos hb] at h
        exact absurd h (List.cons_ne_nil _ _)
      · simp only [classifyTop, hact, if_neg hb] at h
        rcases classifyRuns_decomp isAct rest u c sp2 [] with ⟨w', occs', h1, _⟩
        rw [h1] at h
        exact absurd h (List.cons_ne_nil _ _)

theorem defaultResults_keys_registered (unparsed : List Token) (reg : Registry α)
    (defaults : List String) :
    ∀ k ∈ (defaultResults unparsed reg defaults).map Prod.fst,
      (reg.lookup k).isSome = true := by
  intro k hk
  rcases List.mem_map.mp hk with ⟨r, hr, rfl⟩
  rw [defaultResults] at hr
  rcases List.mem_filterMap.mp hr with ⟨d, _, hmap⟩
  rcases Option.map_eq_some'.mp hmap with ⟨sp, hsp, heq⟩
  have hd : d = r.1 := congrArg Prod.fst heq
  rw [← hd, hsp]
  rfl

theorem isAction_name_eq (reg : Registry α) (aliases : AliasTable) (t : Token)
    (c : String) (sp : Subparser α) (h : isAction reg aliases t = some (c, sp)) :
    c = canonicalName aliases t := by
  rw [isAction] at h
  rcases Option.map_eq_some'.mp h with ⟨sp', _, heq⟩
  exact (congrArg Prod.fst heq).symm

theorem parse_keys_registered (unparsed : List Token) (reg : Registry α)
    (aliases : AliasTable) (defaults : List String)
    (m : List (String × Namespace α)) (l : List Token)
    (h : parse_subparser_arguments unparsed reg aliases defaults = .ok (m, l)) :
    ∀ k ∈ m.map Prod.fst, (reg.lookup k).isSome = true := by
  by_cases hocc : ((classifyTop (isAction reg aliases) unparsed).2.1).isEmpty = true
  · by_cases hne : unparsed.isEmpty = true
    · rw [parse_subparser_arguments, if_pos hocc, if_pos hne] at h
      injection h with h2
      have hm : m = [] := (congrArg Prod.fst h2).symm
      intro k hk
      rw [hm] at hk
      simp at hk
    · have hne' : unparsed.isEmpty = false := Bool.eq_false_iff.mpr hne
      by_cases hdef :
          (!defaults.isEmpty && defaults.all (fun d => (reg.lookup d).isSome)) = true
      · rw [parse_default_path unparsed reg aliases defaults hocc hne' hdef] at h
        injection h with h2
        have hm : m = buildMapping (defaultResults unparsed reg defaults) :=
          (congrArg Prod.fst h2).symm
        intro k hk
        rw [hm, buildMapping_keys, mem_dedupFirst] at hk
        exact defaultResults_keys_registered unparsed reg defaults k hk
      · rw [parse_error_path unparsed reg aliases defaults hocc hne'
          (Bool.eq_false_iff.mpr hdef)] at h
        exact Except.noConfusion h
  · have hocc' : ((classifyTop (isAction reg aliases) unparsed).2.1).isEmpty = false :=
      Bool.eq_false_iff.mpr hocc
    rw [parse_action_path unparsed reg aliases defaults hocc'] at h
    injection h with h2
    have hm : m = buildMapping (actionResults
        (classifyTop (isAction reg aliases) unparsed).1
        (classifyTop (isAction reg aliases) unparsed).2.1
        (classifyTop (isAction reg aliases) unparsed).2.2) :=
      (congrArg Prod.fst h2).symm
    intro k hk
    rw [hm, buildMapping_keys, actionResults_names, mem_dedupFirst] at hk
    rcases List.mem_map.mp hk with ⟨o, ho, rfl⟩
    have hoact := classifyTop_tok_isAct (isAction reg aliases) unparsed o ho
    rw [isAction] at hoact
    rcases Option.map_eq_some'.mp hoact with ⟨sp', hsp', heq⟩
    have hcn : canonicalName aliases o.tok = o.name := congrArg Prod.fst heq
    rw [← hcn, hsp']
    rfl

theorem forall₂_concat_inv {β : Type v} {R : α → β → Prop} (l₁ : List α) (x : α)
    (l₂ : List β) (h : List.Forall₂ R (l₁ ++ [x]) l₂) :
    ∃ l₂' y, l₂ = l₂' ++ [y] ∧ List.Forall₂ R l₁ l₂' ∧ R x y := by
  induction l₁ generalizing l₂ with
  | nil =>
    rcases h with _ | @⟨x', y, l', ys, hxy, hrest⟩
    cases hrest
    exact ⟨[], y, rfl, List.Forall₂.nil, hxy⟩
  | cons u l₁ ih =>
    rcases h with _ | @⟨u', v, l', ys, huv, hrest⟩
    rcases ih ys hrest with ⟨l₂', y, rfl, hF, hR⟩
    exact ⟨v :: l₂', y, rfl, List.Forall₂.cons huv hF, hR⟩

theorem forall₂_noborg (isAct : Token → Option (String × Subparser α))
    (l₁ l₂ : List Token)
    (hrel : List.Forall₂ (fun x y => isAct y = isAct x ∧
      (((isAct x).isNone = true) → y = x) ∧
      (∀ c2 sp2, isAct x = some (c2, sp2) → c2 ≠ passThroughName)) l₁ l₂) :
    ∀ t ∈ l₂, ∀ c2 sp2, isAct t = some (c2, sp2) → c2 ≠ passThroughName := by
  induction hrel with
  | nil =>
    intro t ht
    simp at ht
  | @cons x y xs ys hxy hrest ih =>
    intro t ht c2 sp2 hs
    rcases List.mem_cons.mp ht with rfl | ht2
    · rw [hxy.1] at hs
      exact hxy.2.2 c2 sp2 hs
    · exact ih t ht2 c2 sp2 hs

theorem classifyRuns_capture (isAct : Token → Option (String × Subparser α))
    (b : Token) (spB : Subparser α) (tail : List Token)
    (hB : isAct b = some (passThroughName, spB)) (xs : List Token) :
    ∀ (tok : Token) (nm : String) (sp : Subparser α) (win : List Token),
      (∀ u ∈ xs, ∀ c sp2, isAct u = some (c, sp2) → c ≠ passThroughName) →
      classifyRuns isAct tok nm sp win (xs ++ b :: tail) =
        ((classifyRuns isAct tok nm sp win xs).1 ++
          [⟨b, passThroughName, spB, []⟩], some tail) := by
  induction xs with
  | nil =>
    intro tok nm sp win _
    simp [classifyRuns, hB]
  | cons u xs ih =>
    intro tok nm sp win hxs
    cases hact : isAct u with
    | none =>
      simp only [List.cons_append, classifyRuns, hact, List.append_eq]
      exact ih tok nm sp (win ++ [u]) (fun v hv => hxs v (List.mem_cons_of_mem _ hv))
    | some csp =>
      obtain ⟨c2, sp2⟩ := csp
      have hc : c2 ≠ passThroughName := hxs u (List.mem_cons_self _ _) c2 sp2 hact
      simp only [List.cons_append, classifyRuns, hact, if_neg hc, List.append_eq]
      rw [ih u c2 sp2 [] (fun v hv => hxs v (List.mem_cons_of_mem _ hv))]

theorem classifyTop_capture (isAct : Token → Option (String × Subparser α))
    (b : Token) (spB : Subparser α) (tail : List Token)
    (hB : isAct b = some (passThroughName, spB)) :
    ∀ xs : List Token,
      (∀ u ∈ xs, ∀ c sp2, isAct u = some (c, sp2) → c ≠ passThroughName) →
      classifyTop isAct (xs ++ b :: tail) =
        ((classifyTop isAct xs).1,
          (classifyTop isAct xs).2.1 ++ [⟨b, passThroughName, spB, []⟩],
          some tail) := by
  intro xs
  induction xs with
  | nil =>
    intro _
    simp [classifyTop, hB]
  | cons u xs ih =>
    intro hxs
    cases hact : isAct u with
    | none =>
      simp only [List.cons_append, classifyTop, hact, List.append_eq]
      rw [ih (fun v hv => hxs v (List.mem_cons_of_mem _ hv))]
    | some csp =>
      obtain ⟨c2, sp2⟩ := csp
      have hc : c2 ≠ passThroughName := hxs u (List.mem_cons_self _ _) c2 sp2 hact
      simp only [List.cons_append, classifyTop, hact, if_neg hc, List.append_eq]
      rw [classifyRuns_capture isAct b spB tail hB xs u c2 sp2 []
        (fun v hv => hxs v (List.mem_cons_of_mem _ hv))]

/-- C3 (amended): replacing occurrences of a registered action's canonical
name by one of its registered aliases at positions that are not inside the
pass-through action's captured tail yields the identical parser output —
Result Mapping (keyed by the canonical name) and Leftover Tokens.  The
substituted region is the body: either the whole sequence, when no token of
it triggers the pass-through action, or everything up to and including the
first pass-through trigger, the captured tail being shared verbatim
(substitution inside the tail changes the captured options, see the
counterexample).  Moreover every Result Mapping key is a registered
canonical action name, so an alias string, which is not itself registered,
never appears as a key. -/
theorem parse_subparser_arguments_alias_equiv (reg : Registry α)
    (aliases : AliasTable) (defaults : List String) (a c : String)
    (hres : canonicalName aliases a = c) (hcc : canonicalName aliases c = c)
    (hreg : (reg.lookup c).isSome = true) (body₁ body₂ rest : List Token)
    (hrel : List.Forall₂ (fun x y => y = x ∨ (x = c ∧ y = a)) body₁ body₂)
    (hshape :
      (rest = [] ∧ ∀ t ∈ body₁, ∀ c2 sp2,
        isAction reg aliases t = some (c2, sp2) → c2 ≠ passThroughName) ∨
      (∃ pre1 b spB, body₁ = pre1 ++ [b] ∧
        isAction reg aliases b = some (passThroughName, spB) ∧
        ∀ t ∈ pre1, ∀ c2 sp2,
          isAction reg aliases t = some (c2, sp2) → c2 ≠ passThroughName)) :
    parse_subparser_arguments (body₂ ++ rest) reg aliases defaults =
      parse_subparser_arguments (body₁ ++ rest) reg aliases defaults ∧
    (∀ m l, parse_subparser_arguments (body₁ ++ rest) reg aliases defaults =
        .ok (m, l) →
      ∀ k ∈ m.map Prod.fst, (reg.lookup k).isSome = true ∧
        ∀ al, (reg.lookup al).isSome = false → k ≠ al) := by
  constructor
  · rcases hshape with ⟨hrest0, hnoborg⟩ | ⟨pre1, b, spB, hb1, hbB, hnb⟩
    · subst hrest0
      simp only [List.append_nil]
      have hrel' := forall₂_strengthen reg aliases a c hres hcc hreg body₁ body₂
        hrel hnoborg
      obtain ⟨e1, e2, e3⟩ := classifyTop_congr (isAction reg aliases) body₁ body₂ hrel'
      by_cases hocc : (classifyTop (isAction reg aliases) body₁).2.1 = []
      · have hall := classifyTop_occs_nil (isAction reg aliases) body₁ hocc
        rw [forall₂_eq_of_none (isAction reg aliases) body₁ body₂ hrel' hall]
      · have hocc1 : ((classifyTop (isAction reg aliases) body₁).2.1).isEmpty
            = false := by
          cases hcl : (classifyTop (isAction reg aliases) body₁).2.1 with
          | nil => exact absurd hcl hocc
          | cons o os => rfl
        have hlen := congrArg List.length e2
        rw [List.length_map, List.length_map] at hlen
        have hocc2 : ((classifyTop (isAction reg aliases) body₂).2.1).isEmpty
            = false := by
          cases hcl2 : (classifyTop (isAction reg aliases) body₂).2.1 with
          | nil =>
            rw [hcl2] at hlen
            cases hcl1 : (classifyTop (isAction reg aliases) body₁).2.1 with
            | nil => exact absurd hcl1 hocc
            | cons o os =>
              rw [hcl1] at hlen
              simp at hlen
          | cons o os => rfl
        rw [parse_action_path body₂ reg aliases defaults hocc2,
          parse_action_path body₁ reg aliases defaults hocc1,
          actionResults_factor, actionResults_factor,
          classifiedTokens_factor, classifiedTokens_factor, e1, e2, e3]
    · subst hb1
      rcases forall₂_concat_inv pre1 b body₂ hrel with ⟨pre2, b2, hb2, hrelPre, hrelb⟩
      subst hb2
      have hrelPre' := forall₂_strengthen reg aliases a c hres hcc hreg pre1 pre2
        hrelPre hnb
      obtain ⟨e1, e2, _⟩ := classifyTop_congr (isAction reg aliases) pre1 pre2 hrelPre'
      have hnb2 := forall₂_noborg (isAction reg aliases) pre1 pre2 hrelPre'
      have hbB2 : isAction reg aliases b2 = some (passThroughName, spB) := by
        rcases hrelb with heq2 | ⟨hbc, hba⟩
        · rw [heq2]
          exact hbB
        · rw [hbc, isAction, hcc] at hbB
          rcases Option.map_eq_some'.mp hbB with ⟨sp', hsp', heq⟩
          rw [hba, isAction, hres, hsp', Option.map_some']
          exact congrArg some heq
      have hcap1 := classifyTop_capture (isAction reg aliases) b spB rest hbB pre1 hnb
      have hcap2 := classifyTop_capture (isAction reg aliases) b2 spB rest hbB2 pre2 hnb2
      have hl1 : (pre1 ++ [b]) ++ rest = pre1 ++ b :: rest := by simp
      have hl2 : (pre2 ++ [b2]) ++ rest = pre2 ++ b2 :: rest := by simp
      rw [hl1, hl2]
      have hne : ∀ (l : List (Occ α)) (o : Occ α), (l ++ [o]).isEmpty = false := by
        intro l o
        cases l with
        | nil => rfl
        | cons z zs => rfl
      have hocc1 : ((classifyTop (isAction reg aliases)
          (pre1 ++ b :: rest)).2.1).isEmpty = false := by
        rw [hcap1]
        exact hne _ _
      have hocc2 : ((classifyTop (isAction reg aliases)
          (pre2 ++ b2 :: rest)).2.1).isEmpty = false := by
        rw [hcap2]
        exact hne _ _
      have E1 : (classifyTop (isAction reg aliases) (pre2 ++ b2 :: rest)).1 =
          (classifyTop (isAction reg aliases) (pre1 ++ b :: rest)).1 := by
        rw [hcap1, hcap2]
        exact e1
      have E2 : ((classifyTop (isAction reg aliases) (pre2 ++ b2 :: rest)).2.1).map
            occProj =
          ((classifyTop (isAction reg aliases) (pre1 ++ b :: rest)).2.1).map
            occProj := by
        rw [hcap1, hcap2]
        simp only [List.map_append]
        rw [e2]
        rfl
      have E3 : (classifyTop (isAction reg aliases) (pre2 ++ b2 :: rest)).2.2 =
          (classifyTop (isAction reg aliases) (pre1 ++ b :: rest)).2.2 := by
        rw [hcap1, hcap2]
      rw [parse_action_path _ reg aliases defaults hocc2,
        parse_action_path _ reg aliases defaults hocc1,
        actionResults_factor, actionResults_factor,
        classifiedTokens_factor, classifiedTokens_factor, E1, E2, E3]
  · intro m l h k hk
    have hk1 := parse_keys_registered (body₁ ++ rest) reg aliases defaults m l h k hk
    refine ⟨hk1, ?_⟩
    intro al hal hkal
    rw [hkal, hal] at hk1
    exact Bool.noConfusion hk1

/-- The alias unit test's registry extended with the pass-through action. -/
def mockRegistryAliasBorg : Registry Nat :=
  [("borg", mockSp 1 ["borg"]), ("action", mockSp 2 ["action"])]

/-- C3, counterexample to the claim as stated: replacing the canonical name
"action" by its registered alias "-a" at a position *after* the pass-through
action's name changes the Result Mapping, because the pass-through action
captures those tokens verbatim into its `options` field. -/
theorem parse_subparser_arguments_alias_counterexample :
    parse_subparser_arguments ["borg", "-a"] mockRegistryAliasBorg
        [("action", ["-a"])] [] ≠
      parse_subparser_arguments ["borg", "action"] mockRegistryAliasBorg
        [("action", ["-a"])] [] := by
  intro h
  have h2 := congrArg (fun e => (Except.toOption e).map
    (fun p => (p.1.lookup "borg").map (fun ns => ns.options))) h
  revert h2
  decide

/-- The alias unit test's registry: "action" (aliased "-a") and "other". -/
def mockRegistryAlias : Registry Nat :=
  [("action", mockSp 1 ["action"]), ("other", mockSp 2 ["other"])]

/-- Witness for the amended C3: at the alias unit test's input, resolving
("-a", "--foo", "true") equals resolving ("action", "--foo", "true"), keyed
by the canonical name; and the alias may be substituted before a
pass-through trigger: resolving ("-a", "borg", "list") equals resolving
("action", "borg", "list"). -/
theorem parse_subparser_arguments_alias_equiv_witness :
    (parse_subparser_arguments ["-a", "--foo", "true"] mockRegistryAlias
        [("action", ["-a"])] [] =
      parse_subparser_arguments ["action", "--foo", "true"] mockRegistryAlias
        [("action", ["-a"])] [] ∧
    (∀ m l, parse_subparser_arguments ["action", "--foo", "true"] mockRegistryAlias
        [("action", ["-a"])] [] = .ok (m, l) →
      ∀ k ∈ m.map Prod.fst, (mockRegistryAlias.lookup k).isSome = true ∧
        ∀ al, (mockRegistryAlias.lookup al).isSome = false → k ≠ al)) ∧
    parse_subparser_arguments ["-a", "borg", "list"] mockRegistryAliasBorg
        [("action", ["-a"])] [] =
      parse_subparser_arguments ["action", "borg", "list"] mockRegistryAliasBorg
        [("action", ["-a"])] [] := by
  refine ⟨?_, ?_⟩
  · have h := parse_subparser_arguments_alias_equiv mockRegistryAlias
      [("action", ["-a"])] [] "-a" "action" (by decide) (by decide) (by decide)
      ["action", "--foo", "true"] ["-a", "--foo", "true"] [] (by decide)
      (Or.inl ⟨rfl, fun t ht c2 sp2 hs => by
        rw [isAction_name_eq mockRegistryAlias [("action", ["-a"])] t c2 sp2 hs]
        clear hs
        revert ht
        revert t
        decide⟩)
    simpa using h
  · have h2 := parse_subparser_arguments_alias_equiv mockRegistryAliasBorg
      [("action", ["-a"])] [] "-a" "action" (by decide) (by decide) (by decide)
      ["action", "borg"] ["-a", "borg"] ["list"] (by decide)
      (Or.inr ⟨["action"], "borg", mockSp 1 ["borg"], rfl, rfl,
        fun t ht c2 sp2 hs => by
          rw [isAction_name_eq mockRegistryAliasBorg [("action", ["-a"])] t c2 sp2 hs]
          clear hs
          revert ht
          revert t
          decide⟩)
    exact h2.1

/-! ### Claims C8 and C9: resolve_archive_name -/

theorem splitlinesList_ne_nil (c : Char) (cs : List Char) :
    splitlinesList (c :: cs) ≠ [] := by
  cases cs with
  | nil =>
    by_cases hb : pyIsLineBreak c = true
    · simp [splitlinesList, hb]
    · simp [splitlinesList, hb]
  | cons c2 cs2 =>
    by_cases hrn : (c = '\r' && c2 = '\n') = true
    · simp [splitlinesList, hrn]
    · by_cases hb : pyIsLineBreak c = true
      · simp [splitlinesList, hrn, hb]
      · simp only [splitlinesList, hrn, hb, Bool.false_eq_true, if_false]
        cases hrec : splitlinesList (c2 :: cs2) with
        | nil => simp
        | cons l ls => simp

theorem splitlines_ne_nil (s : String) (h : s ≠ "") : splitlines s ≠ [] := by
  rw [splitlines]
  intro hmap
  have hnil : splitlinesList s.data = [] := List.map_eq_nil_iff.mp hmap
  cases hd : s.data with
  | nil => exact h (String.ext hd)
  | cons c cs =>
    rw [hd] at hnil
    exact splitlinesList_ne_nil c cs hnil

/-- C8: for every archive name other than the literal "latest",
`resolve_archive_name` returns that archive name unchanged and executes no
external command, whatever the repository path, storage config, local Borg
version, paths, feature detection, and external executor are. -/
theorem resolve_archive_name_passthrough (repository_path archive : String)
    (storage_config : List (String × Val)) (local_borg_version local_path : String)
    (remote_path : Val) (feature_available : Feature → String → Bool)
    (execute_command_and_capture_output : List String → String)
    (h : archive ≠ "latest") :
    resolve_archive_name repository_path archive storage_config local_borg_version
      local_path remote_path feature_available execute_command_and_capture_output =
      (.ok archive, []) := by
  rw [resolve_archive_name, if_pos h]

/-- Witness for C8 at a concrete non-"latest" archive name. -/
theorem resolve_archive_name_passthrough_witness :
    resolve_archive_name "repo" "archive123" [("lock_wait", .vint 5)] "1.2.3" "borg"
      (.vstr "remote-borg") (fun _ _ => true) (fun _ => "unused output") =
      (.ok "archive123", []) :=
  resolve_archive_name_passthrough "repo" "archive123" [("lock_wait", .vint 5)]
    "1.2.3" "borg" (.vstr "remote-borg") (fun _ _ => true) (fun _ => "unused output")
    (by decide)

/-- C9: with archive name "latest", `resolve_archive_name` executes exactly
the repository-listing command once; it raises the ValueError "No archives
found in the repository" exactly when the stripped captured output has no
lines (that is, strips to the empty string), and otherwise returns the last
line of the stripped output. -/
theorem resolve_archive_name_latest (repository_path : String)
    (storage_config : List (String × Val)) (local_borg_version local_path : String)
    (remote_path : Val) (feature_available : Feature → String → Bool)
    (execute_command_and_capture_output : List String → String) :
    (resolve_archive_name repository_path "latest" storage_config local_borg_version
        local_path remote_path feature_available execute_command_and_capture_output).2 =
      [resolve_archive_name_command repository_path storage_config local_borg_version
        local_path remote_path feature_available] ∧
    (pyStrip (execute_command_and_capture_output (resolve_archive_name_command
        repository_path storage_config local_borg_version local_path remote_path
        feature_available)) = "" →
      (resolve_archive_name repository_path "latest" storage_config local_borg_version
        local_path remote_path feature_available
        execute_command_and_capture_output).1 =
        .error "No archives found in the repository") ∧
    (pyStrip (execute_command_and_capture_output (resolve_archive_name_command
        repository_path storage_config local_borg_version local_path remote_path
        feature_available)) ≠ "" →
      (resolve_archive_name repository_path "latest" storage_config local_borg_version
        local_path remote_path feature_available
        execute_command_and_capture_output).1 =
        .ok ((splitlines (pyStrip (execute_command_and_capture_output
          (resolve_archive_name_command repository_path storage_config
            local_borg_version local_path remote_path feature_available)))).getLastD
          "")) := by
  have hbody : resolve_archive_name repository_path "latest" storage_config
      local_borg_version local_path remote_path feature_available
      execute_command_and_capture_output =
      (match splitlines (pyStrip (execute_command_and_capture_output
          (resolve_archive_name_command repository_path storage_config
            local_borg_version local_path remote_path feature_available))) with
       | [] => (.error "No archives found in the repository",
           [resolve_archive_name_command repository_path storage_config
             local_borg_version local_path remote_path feature_available])
       | l :: ls => (.ok ((l :: ls).getLastD ""),
           [resolve_archive_name_command repository_path storage_config
             local_borg_version local_path remote_path feature_available])) := by
    rw [resolve_archive_name, if_neg (by simp)]
  refine ⟨?_, ?_, ?_⟩
  · rw [hbody]
    cases hsp : splitlines (pyStrip (execute_command_and_capture_output
        (resolve_archive_name_command repository_path storage_config
          local_borg_version local_path remote_path feature_available))) with
    | nil => rfl
    | cons l ls => rfl
  · intro hempty
    rw [hbody]
    rw [show splitlines (pyStrip (execute_command_and_capture_output
        (resolve_archive_name_command repository_path storage_config
          local_borg_version local_path remote_path feature_available))) = []
      from by rw [hempty]; rfl]
  · intro hne
    rw [hbody]
    cases hsp : splitlines (pyStrip (execute_command_and_capture_output
        (resolve_archive_name_command repository_path storage_config
          local_borg_version local_path remote_path feature_available))) with
    | nil => exact absurd hsp (splitlines_ne_nil _ hne)
    | cons l ls => rfl

/-- Witness for C9: a two-line listing output resolves "latest" to the last
line, and the listing command is executed exactly once. -/
theorem resolve_archive_name_latest_witness :
    (resolve_archive_name "repo" "latest" [] "1.2.3" "borg" .vnone
        (fun _ _ => true) (fun _ => "arch1\r\narch2\n")).1 = .ok "arch2" ∧
    (resolve_archive_name "repo" "latest" [] "1.2.3" "borg" .vnone
        (fun _ _ => true) (fun _ => "arch1\r\narch2\n")).2 =
      [resolve_archive_name_command "repo" [] "1.2.3" "borg" .vnone
        (fun _ _ => true)] := by
  have h := resolve_archive_name_latest "repo" [] "1.2.3" "borg" .vnone
    (fun _ _ => true) (fun _ => "arch1\r\narch2\n")
  refine ⟨?_, h.1⟩
  have h3 := h.2.2 (by decide)
  rw [h3]
  rfl

theorem append_isEmpty_false (a b : String) (h : b.isEmpty = false) :
    (a ++ b).isEmpty = false := by
  rw [Bool.eq_false_iff] at h ⊢
  intro hc
  apply h
  rw [String.isEmpty_iff] at hc ⊢
  have hdata : a.data ++ b.data = [] := by
    have h2 := congrArg String.data hc
    rwa [String.data_append] at h2
  have hb : b.data = [] := (List.append_eq_nil.mp hdata).2
  apply String.ext
  rw [hb]

theorem make_flags_vstr (name s : String) (h : s.isEmpty = false) :
    make_flags name (.vstr s) = ["--" ++ dashify name, s] := by
  have ht : (Val.vstr s).truthy = true := by simp [Val.truthy, h]
  rw [make_flags, if_pos ht, if_neg (fun hc => Val.noConfusion hc)]
  rfl

/-- C10: for every rlist arguments record with a truthy prefix, the command
built by `make_rlist_command` contains the archive-matching flag pair derived
from the prefix (`--match-archives` with value `sh:<prefix>*` when the
MATCH_ARCHIVES feature is available, otherwise `--glob-archives` with value
`<prefix>*`), and the command ignores the `match_archives` argument; moreover,
for every rlist arguments record, the generic argument-to-flag conversion
emits only the flags of the `json` field and of the extra fields — the
`repository`, `prefix` and `match_archives` fields are never emitted. -/
theorem make_rlist_command_spec (repository_path : String)
    (storage_config : List (String × Val)) (local_borg_version : String)
    (args : RlistArguments) (local_path : String) (remote_path : Val)
    (feature_available : Feature → String → Bool) (loggerLevel : Nat)
    (hp : args.prefix_value.truthy = true) :
    (∃ l r, make_rlist_command repository_path storage_config local_borg_version
        args local_path remote_path feature_available loggerLevel =
      l ++ (if feature_available .MATCH_ARCHIVES local_borg_version then
          ["--match-archives", "sh:" ++ args.prefix_value.render ++ "*"]
        else ["--glob-archives", args.prefix_value.render ++ "*"]) ++ r) ∧
    (∀ v, make_rlist_command repository_path storage_config local_borg_version
        { args with match_archives := v } local_path remote_path feature_available
        loggerLevel =
      make_rlist_command repository_path storage_config local_borg_version args
        local_path remote_path feature_available loggerLevel) ∧
    (∀ a : RlistArguments, make_flags_from_arguments a.fields MAKE_FLAGS_EXCLUDES =
      make_flags "json" (.vbool a.json)
        ++ make_flags_from_arguments a.extra MAKE_FLAGS_EXCLUDES) := by
  refine ⟨?_, ?_, ?_⟩
  · refine ⟨[local_path,
        if feature_available .RLIST local_borg_version then "rlist" else "list"]
        ++ (if loggerLevel == 20 && !args.json then ["--info"] else [])
        ++ (if decide (loggerLevel ≤ 10) && !args.json then ["--debug", "--show-rc"]
            else [])
        ++ make_flags "remote-path" remote_path
        ++ make_flags "lock-wait" (configGet storage_config "lock_wait"),
      make_flags_from_arguments args.fields MAKE_FLAGS_EXCLUDES
        ++ make_repository_flags repository_path
            (feature_available .SEPARATE_REPOSITORY_ARCHIVE local_borg_version), ?_⟩
    rw [make_rlist_command, if_pos hp]
    by_cases hma : feature_available .MATCH_ARCHIVES local_borg_version = true
    · rw [if_pos hma, if_pos hma,
        make_flags_vstr _ _ (append_isEmpty_false _ _ (by decide)),
        show ("--" ++ dashify "match-archives") = "--match-archives" from by decide]
      simp [List.append_assoc]
    · rw [if_neg hma, if_neg hma,
        make_flags_vstr _ _ (append_isEmpty_false _ _ (by decide)),
        show ("--" ++ dashify "glob-archives") = "--glob-archives" from by decide]
      simp [List.append_assoc]
  · intro v
    simp only [make_rlist_command, hp, if_true]
    rfl
  · intro a
    rfl

theorem make_rlist_command_spec_witness :
    ∃ l r, make_rlist_command "repo" [] "1.2.3"
        { repository := .vstr "r", json := false, prefix_value := .vstr "foo",
          match_archives := .vnone, extra := [] } "borg" .vnone
        (fun _ _ => true) 30 =
      l ++ ["--match-archives", "sh:foo*"] ++ r := by
  obtain ⟨l, r, hlr⟩ := (make_rlist_command_spec "repo" [] "1.2.3"
    { repository := .vstr "r", json := false, prefix_value := .vstr "foo",
      match_archives := .vnone, extra := [] } "borg" .vnone
    (fun _ _ => true) 30 (by decide)).1
  exact ⟨l, r, by rw [hlr]; rfl⟩
